import Mathlib

/-!
# Verification of the `res` content-lifecycle engine

A shallow embedding, in Lean 4, of the core operations of the `res`
reservoir store (TypeScript): the identifier ledger (`content-id-allocator.ts`),
the retention-lock engine (`lock-controller.ts`, `input-normalizer.ts`),
the eviction engine (`eviction-controller.ts`), the filesystem reconciler
(`filesystem-synchronizer.ts`, plus the legacy `Reservoir.syncContentTracking`),
the fetch/dedup orchestrator (`fetch-orchestrator.ts`) and the polling
scheduler (`background-fetcher.ts`).

Conventions of the embedding:
* JavaScript strings are Lean `String`s; `trim` is modelled over the ASCII
  whitespace characters that occur in this code base's data.
* `Number.parseInt(s, 10)` is modelled by `jsParseInt : String → Option Int`
  (`none` plays the role of `NaN`); JS `Number(s)` by `jsNumber`.
  Machine floats never overflow in the scenarios modelled here, so exact
  integers are used.
* The filesystem is an explicit association list from (relative, normalized)
  paths to file facts (size, mtime, contents); `fs.existsSync` is list lookup.
* Fallible code (`throw new Error(...)`) is an `Except String` value.
-/

/- ── JS string primitives ─────────────────────────────────────────────── -/

/-- Whitespace for the purposes of `String.prototype.trim()` (ASCII subset). -/
def jsIsWs (c : Char) : Bool :=
  c = ' ' || c = '\t' || c = '\n' || c = '\r'

/-- `trim()` on the character list: strip whitespace from both ends. -/
def jsTrimList (l : List Char) : List Char :=
  ((l.dropWhile jsIsWs).reverse.dropWhile jsIsWs).reverse

/-- JS `s.trim()`. -/
def jsTrim (s : String) : String :=
  String.mk (jsTrimList s.toList)

/-- Longest prefix of decimal digits, as a numeral (none when no digit). -/
def digitsValue : List Char → Option Nat → Option Nat
  | [], acc => acc
  | c :: rest, acc =>
    if c.isDigit then
      digitsValue rest (some ((acc.getD 0) * 10 + (c.toNat - '0'.toNat)))
    else acc

/-- Sign-then-digits step of `parseInt` over the already-left-trimmed list. -/
def jsParseIntList : List Char → Option Int
  | [] => none
  | c :: rest =>
    if c = '-' then (digitsValue rest none).map (fun n => -(n : Int))
    else if c = '+' then (digitsValue rest none).map (fun n => (n : Int))
    else (digitsValue (c :: rest) none).map (fun n => (n : Int))

/-- `Number.parseInt(s, 10)`: skip leading whitespace, optional sign, longest
digit prefix; `none` models `NaN`. -/
def jsParseInt (s : String) : Option Int :=
  jsParseIntList (s.toList.dropWhile jsIsWs)

/-- All characters are decimal digits (used by `jsNumber`). -/
def allDigits (l : List Char) : Bool :=
  l.all Char.isDigit

/-- JS `Number(s)` restricted to integral results: the empty (or blank) string
converts to `0`, a signed decimal numeral to its value, anything else to
`none` (modelling `NaN`). Fractional/exponential/hex forms do not occur in
this code base's identifiers. -/
def jsNumber (s : String) : Option Int :=
  match jsTrimList s.toList with
  | [] => some 0
  | c :: rest =>
    if c = '-' then
      (if rest ≠ [] && allDigits rest then
        (digitsValue rest none).map (fun n => -(n : Int)) else none)
    else if c = '+' then
      (if rest ≠ [] && allDigits rest then
        (digitsValue rest none).map (fun n => (n : Int)) else none)
    else
      (if allDigits (c :: rest) then
        (digitsValue (c :: rest) none).map (fun n => (n : Int)) else none)

/- ── types.ts ─────────────────────────────────────────────────────────── -/

/-- `GLOBAL_LOCK_NAME` from `types.ts`. -/
def GLOBAL_LOCK_NAME : String := "[global]"

/-- `DEFAULT_REFRESH_INTERVAL_SECONDS` from `types.ts` (24h). -/
def DEFAULT_REFRESH_INTERVAL_SECONDS : Nat := 24 * 60 * 60

/-- `DuplicateStrategy` from `types.ts`. -/
inductive DuplicateStrategy where
  | overwrite
  | keepBoth
deriving DecidableEq, Repr

/- ── input-normalizer.ts ──────────────────────────────────────────────── -/

namespace InputNormalizer

/-- `InputNormalizer.locks`: trim each name, drop blanks, deduplicate keeping
first occurrences (JS `Set` insertion order). The `seen` accumulator mirrors
the `unique` set; the public entry point starts it empty. -/
def locksGo : List String → List String → List String
  | [], _ => []
  | x :: rest, seen =>
    let normalized := jsTrim x
    if normalized = "" then locksGo rest seen
    else if seen.contains normalized then locksGo rest seen
    else normalized :: locksGo rest (normalized :: seen)

/-- `InputNormalizer.locks(lockNames)` (validateNames = false path; every
element is a string in this model). -/
def locks (lockNames : List String) : List String :=
  locksGo lockNames []

/-- `InputNormalizer.lockName`: `undefined` ↦ the global sentinel, comma ↦
validation error, blank ↦ the global sentinel, otherwise the trimmed name. -/
def lockName (input : Option String) : Except String String :=
  match input with
  | none => .ok GLOBAL_LOCK_NAME
  | some s =>
    let normalized := jsTrim s
    if normalized.toList.contains ',' then
      .error "Invalid lock name: commas are not allowed"
    else if normalized.length > 0 then .ok normalized
    else .ok GLOBAL_LOCK_NAME

end InputNormalizer

/- ── lock-controller.ts: updateContentLock (single item) ──────────────── -/

namespace LockController

/-- Body of `updateContentLock` on one item's lock list, retain branch:
`item.locks = InputNormalizer.locks([...item.locks, lockName])`. -/
def retainLocks (itemLocks : List String) (lockName : String) : List String :=
  InputNormalizer.locks (itemLocks ++ [lockName])

/-- Body of `updateContentLock` on one item's lock list, release branch:
`item.locks = item.locks.filter((name) => name !== lockName)`. -/
def releaseLocks (itemLocks : List String) (lockName : String) : List String :=
  itemLocks.filter (fun name => name ≠ lockName)

end LockController

/- ── Lemmas about the JS string primitives ────────────────────────────── -/

theorem dropWhile_head_false {p : α → Bool} :
    ∀ {l : List α} {a : α} {t : List α}, List.dropWhile p l = a :: t → p a = false := by
  intro l
  induction l with
  | nil => intro a t h; simp [List.dropWhile] at h
  | cons c r ih =>
    intro a t h
    by_cases hc : p c
    · rw [List.dropWhile_cons_of_pos hc] at h
      exact ih h
    · rw [List.dropWhile_cons_of_neg hc] at h
      cases h
      simpa using hc

theorem mem_dropWhile_of_neg {p : α → Bool} {x : α} :
    ∀ {l : List α}, x ∈ l → p x = false → x ∈ List.dropWhile p l := by
  intro l
  induction l with
  | nil => intro h _; cases h
  | cons c r ih =>
    intro hmem hx
    by_cases hc : p c
    · rw [List.dropWhile_cons_of_pos hc]
      rcases List.mem_cons.mp hmem with rfl | hr
      · rw [hx] at hc; cases hc
      · exact ih hr hx
    · rw [List.dropWhile_cons_of_neg hc]
      exact hmem

theorem getLast?_dropWhile {p : α → Bool} :
    ∀ {l : List α}, List.dropWhile p l ≠ [] → (List.dropWhile p l).getLast? = l.getLast? := by
  intro l
  induction l with
  | nil => intro h; simp [List.dropWhile] at h
  | cons c r ih =>
    intro hne
    by_cases hc : p c
    · rw [List.dropWhile_cons_of_pos hc] at hne ⊢
      have hr : r ≠ [] := by
        intro hr; rw [hr] at hne; simp [List.dropWhile] at hne
      rw [ih hne]
      cases r with
      | nil => exact absurd rfl hr
      | cons d s => simp [List.getLast?_cons_cons]
    · rw [List.dropWhile_cons_of_neg hc]

theorem jsTrimList_head_not_ws {l : List Char} {a : Char} {t : List Char}
    (h : jsTrimList l = a :: t) : jsIsWs a = false := by
  unfold jsTrimList at h
  set d1 := l.dropWhile jsIsWs with hd1
  set e := d1.reverse.dropWhile jsIsWs with he
  have hene : e ≠ [] := by
    intro h0; rw [h0] at h; simp at h
  have hgl : e.getLast? = d1.reverse.getLast? := getLast?_dropWhile hene
  have hhead : (e.reverse).head? = some a := by rw [h]; rfl
  have h1 : e.getLast? = some a := by
    rw [← List.head?_reverse]; exact hhead
  have h2 : d1.reverse.getLast? = some a := by rw [← hgl]; exact h1
  have h3 : d1.head? = some a := by
    rw [← List.getLast?_reverse]; exact h2
  cases hd : d1 with
  | nil => rw [hd] at h3; cases h3
  | cons b s =>
    have hb : b = a := by rw [hd] at h3; simpa using h3
    subst hb
    exact dropWhile_head_false (hd1 ▸ hd)

theorem jsTrimList_idem (l : List Char) : jsTrimList (jsTrimList l) = jsTrimList l := by
  cases hk : jsTrimList l with
  | nil => simp [jsTrimList]
  | cons a t =>
    have ha : jsIsWs a = false := jsTrimList_head_not_ws hk
    have step1 : List.dropWhile jsIsWs (a :: t) = a :: t :=
      List.dropWhile_cons_of_neg (by simp [ha])
    have hrev : (a :: t).reverse = (jsTrimList l).reverse := by rw [hk]
    have step2 : List.dropWhile jsIsWs ((a :: t).reverse) = (a :: t).reverse := by
      rw [hrev]
      unfold jsTrimList
      rw [List.reverse_reverse]
      exact List.dropWhile_idempotent _ _
    unfold jsTrimList
    rw [step1, step2, List.reverse_reverse]

theorem jsTrim_idem (s : String) : jsTrim (jsTrim s) = jsTrim s := by
  unfold jsTrim
  rw [show (String.mk (jsTrimList s.toList)).toList = jsTrimList s.toList from rfl]
  rw [jsTrimList_idem]

theorem mem_jsTrimList_of_neg {x : Char} {l : List Char}
    (hmem : x ∈ l) (hx : jsIsWs x = false) : x ∈ jsTrimList l := by
  unfold jsTrimList
  rw [List.mem_reverse]
  apply mem_dropWhile_of_neg _ hx
  rw [List.mem_reverse]
  exact mem_dropWhile_of_neg hmem hx

/- ── Lemmas about lock-name normalization ─────────────────────────────── -/

/-- Lock lists as persisted by the system: trimmed, non-blank, duplicate-free.
Every output of `InputNormalizer.locks` has this shape. -/
def CanonicalLocks (l : List String) : Prop :=
  (∀ x ∈ l, jsTrim x = x ∧ x ≠ "") ∧ l.Nodup

namespace InputNormalizer

theorem locksGo_canonical :
    ∀ (xs seen : List String), ∀ y ∈ locksGo xs seen, jsTrim y = y ∧ y ≠ "" := by
  intro xs
  induction xs with
  | nil => intro seen y hy; simp [locksGo] at hy
  | cons x rest ih =>
    intro seen y hy
    unfold locksGo at hy
    by_cases h0 : jsTrim x = ""
    · rw [if_pos h0] at hy; exact ih seen y hy
    · rw [if_neg h0] at hy
      by_cases h1 : seen.contains (jsTrim x)
      · rw [if_pos h1] at hy; exact ih seen y hy
      · rw [if_neg h1] at hy
        rcases List.mem_cons.mp hy with rfl | hrest
        · exact ⟨jsTrim_idem x, h0⟩
        · exact ih _ y hrest

theorem locksGo_not_seen :
    ∀ (xs seen : List String), ∀ y ∈ locksGo xs seen, seen.contains y = false := by
  intro xs
  induction xs with
  | nil => intro seen y hy; simp [locksGo] at hy
  | cons x rest ih =>
    intro seen y hy
    unfold locksGo at hy
    by_cases h0 : jsTrim x = ""
    · rw [if_pos h0] at hy; exact ih seen y hy
    · rw [if_neg h0] at hy
      by_cases h1 : seen.contains (jsTrim x)
      · rw [if_pos h1] at hy; exact ih seen y hy
      · rw [if_neg h1] at hy
        rcases List.mem_cons.mp hy with rfl | hrest
        · simpa using h1
        · have h2 := ih (jsTrim x :: seen) y hrest
          simp only [List.contains_cons, Bool.or_eq_false_iff] at h2
          exact h2.2

theorem locksGo_nodup : ∀ (xs seen : List String), (locksGo xs seen).Nodup := by
  intro xs
  induction xs with
  | nil => intro seen; simp [locksGo]
  | cons x rest ih =>
    intro seen
    unfold locksGo
    by_cases h0 : jsTrim x = ""
    · rw [if_pos h0]; exact ih seen
    · rw [if_neg h0]
      by_cases h1 : seen.contains (jsTrim x)
      · rw [if_pos h1]; exact ih seen
      · rw [if_neg h1]
        refine List.nodup_cons.mpr ⟨?_, ih _⟩
        intro hmem
        have h2 := locksGo_not_seen rest (jsTrim x :: seen) _ hmem
        simp [List.contains_cons] at h2

theorem locksGo_mem {n : String} (hn : jsTrim n = n) (hne : n ≠ "") :
    ∀ (xs seen : List String), n ∈ xs → seen.contains n = false → n ∈ locksGo xs seen := by
  intro xs
  induction xs with
  | nil => intro seen h _; cases h
  | cons x rest ih =>
    intro seen hmem hseen
    unfold locksGo
    by_cases h0 : jsTrim x = ""
    · rw [if_pos h0]
      rcases List.mem_cons.mp hmem with rfl | hrest
      · rw [hn] at h0; exact absurd h0 hne
      · exact ih seen hrest hseen
    · rw [if_neg h0]
      by_cases h1 : seen.contains (jsTrim x)
      · rw [if_pos h1]
        rcases List.mem_cons.mp hmem with rfl | hrest
        · rw [hn] at h1; rw [hseen] at h1; cases h1
        · exact ih seen hrest hseen
      · rw [if_neg h1]
        by_cases hx : n = jsTrim x
        · exact hx ▸ List.mem_cons_self _ _
        · rcases List.mem_cons.mp hmem with rfl | hrest
          · exact absurd hn.symm hx
          · refine List.mem_cons.mpr (Or.inr (ih _ hrest ?_))
            simp only [List.contains_cons, Bool.or_eq_false_iff, beq_eq_false_iff_ne, ne_eq]
            exact ⟨hx, hseen⟩

/-- Re-normalizing a canonical list with a name it already carries (or that the
`seen` set already holds) changes nothing: the trailing occurrence is skipped. -/
theorem locksGo_append_skip {n : String} (hn : jsTrim n = n) :
    ∀ (xs seen : List String),
      (∀ x ∈ xs, jsTrim x = x ∧ x ≠ "") → xs.Nodup →
      (∀ x ∈ xs, seen.contains x = false) →
      (seen.contains n = true ∨ n ∈ xs) →
      locksGo (xs ++ [n]) seen = xs := by
  intro xs
  induction xs with
  | nil =>
    intro seen _ _ _ hmem
    rcases hmem with hseen | hmem
    · rw [List.nil_append]
      simp only [locksGo]
      rw [hn]
      by_cases h0 : n = ""
      · rw [if_pos h0]
      · rw [if_neg h0, if_pos hseen]
    · cases hmem
  | cons x rest ih =>
    intro seen hcanon hnodup hdisj hmem
    have hx := hcanon x (List.mem_cons_self _ _)
    rw [List.cons_append]
    simp only [locksGo]
    rw [hx.1, if_neg hx.2, if_neg (by simpa using hdisj x (List.mem_cons_self _ _))]
    congr 1
    apply ih
    · exact fun y hy => hcanon y (List.mem_cons_of_mem _ hy)
    · exact (List.nodup_cons.mp hnodup).2
    · intro y hy
      simp only [List.contains_cons, Bool.or_eq_false_iff, beq_eq_false_iff_ne, ne_eq]
      refine ⟨?_, hdisj y (List.mem_cons_of_mem _ hy)⟩
      intro h; exact (List.nodup_cons.mp hnodup).1 (h ▸ hy)
    · rcases hmem with hseen | hmem
      · left; simp only [List.contains_cons, Bool.or_eq_true_iff]; right; exact hseen
      · rcases List.mem_cons.mp hmem with rfl | hrest
        · left; simp [List.contains_cons]
        · right; exact hrest

/-- Normalizing a canonical list with one genuinely new canonical name appends
that name. -/
theorem locksGo_append_new {n : String} (hn : jsTrim n = n) (hne : n ≠ "") :
    ∀ (xs seen : List String),
      (∀ x ∈ xs, jsTrim x = x ∧ x ≠ "") → xs.Nodup →
      (∀ x ∈ xs, seen.contains x = false) →
      seen.contains n = false → n ∉ xs →
      locksGo (xs ++ [n]) seen = xs ++ [n] := by
  intro xs
  induction xs with
  | nil =>
    intro seen _ _ _ hseen _
    rw [List.nil_append]
    simp only [locksGo]
    rw [hn, if_neg hne, if_neg (by rw [hseen]; simp)]
  | cons x rest ih =>
    intro seen hcanon hnodup hdisj hseen hnot
    have hx := hcanon x (List.mem_cons_self _ _)
    rw [List.cons_append]
    simp only [locksGo]
    rw [hx.1, if_neg hx.2, if_neg (by simpa using hdisj x (List.mem_cons_self _ _))]
    congr 1
    apply ih
    · exact fun y hy => hcanon y (List.mem_cons_of_mem _ hy)
    · exact (List.nodup_cons.mp hnodup).2
    · intro y hy
      simp only [List.contains_cons, Bool.or_eq_false_iff, beq_eq_false_iff_ne, ne_eq]
      refine ⟨?_, hdisj y (List.mem_cons_of_mem _ hy)⟩
      intro h; exact (List.nodup_cons.mp hnodup).1 (h ▸ hy)
    · simp only [List.contains_cons, Bool.or_eq_false_iff, beq_eq_false_iff_ne, ne_eq]
      exact ⟨fun h => hnot (h ▸ List.mem_cons_self _ _), hseen⟩
    · exact fun h => hnot (List.mem_cons_of_mem _ h)

/-- Every output of `InputNormalizer.locks` is canonical. -/
theorem locks_canonical (xs : List String) : CanonicalLocks (locks xs) :=
  ⟨fun y hy => locksGo_canonical xs [] y hy, locksGo_nodup xs []⟩

/-- `InputNormalizer.lockName` only returns trimmed non-blank names. -/
theorem lockName_canonical {input : Option String} {n : String}
    (h : lockName input = .ok n) : jsTrim n = n ∧ n ≠ "" := by
  cases input with
  | none =>
    simp only [lockName] at h
    cases h
    exact ⟨by decide, by decide⟩
  | some s =>
    simp only [lockName] at h
    by_cases hc : (jsTrim s).toList.contains ','
    · rw [if_pos hc] at h; cases h
    · rw [if_neg hc] at h
      by_cases hl : (jsTrim s).length > 0
      · rw [if_pos hl] at h
        cases h
        refine ⟨jsTrim_idem s, ?_⟩
        intro h0
        rw [h0] at hl
        simp at hl
      · rw [if_neg hl] at h
        cases h
        exact ⟨by decide, by decide⟩

end InputNormalizer

/- ── Claim theorems: C8 and C10 ───────────────────────────────────────── -/

/-- C8: Retaining a lock is idempotent: for every tracked content item and
every valid lock name (any name accepted by `InputNormalizer.lockName`),
applying `updateContentLock`'s retain branch twice yields exactly the same
lock set as applying it once. -/
theorem C8_retain_lock_idempotent (l : List String) (input : Option String) (n : String)
    (h : InputNormalizer.lockName input = Except.ok n) :
    LockController.retainLocks (LockController.retainLocks l n) n
      = LockController.retainLocks l n := by
  obtain ⟨hn, hne⟩ := InputNormalizer.lockName_canonical h
  have hcanon := InputNormalizer.locks_canonical (l ++ [n])
  have hmem : n ∈ InputNormalizer.locks (l ++ [n]) :=
    InputNormalizer.locksGo_mem hn hne (l ++ [n]) []
      (List.mem_append_right _ (List.mem_singleton.mpr rfl)) rfl
  exact InputNormalizer.locksGo_append_skip hn (InputNormalizer.locks (l ++ [n])) []
    hcanon.1 hcanon.2 (fun x _ => rfl) (Or.inr hmem)

theorem C8_retain_lock_idempotent_witness :
    LockController.retainLocks (LockController.retainLocks ["pin"] "test-lock") "test-lock"
      = LockController.retainLocks ["pin"] "test-lock" :=
  C8_retain_lock_idempotent ["pin"] (some "test-lock") "test-lock" rfl

/-- C10: a lock name that is omitted or trims to the empty string is treated
as the reserved global sentinel `"[global]"`; a lock name containing a comma
is rejected with a validation error; and retaining with no name adds exactly
the lock `"[global]"` to the item's lock set. -/
theorem C10_lock_name_defaults (s : String) (l : List String) (hl : CanonicalLocks l) :
    InputNormalizer.lockName none = Except.ok GLOBAL_LOCK_NAME ∧
    (jsTrim s = "" → InputNormalizer.lockName (some s) = Except.ok GLOBAL_LOCK_NAME) ∧
    (s.toList.contains ',' = true →
      InputNormalizer.lockName (some s)
        = Except.error "Invalid lock name: commas are not allowed") ∧
    LockController.retainLocks l GLOBAL_LOCK_NAME
      = (if GLOBAL_LOCK_NAME ∈ l then l else l ++ [GLOBAL_LOCK_NAME]) := by
  refine ⟨rfl, ?_, ?_, ?_⟩
  · intro h
    simp only [InputNormalizer.lockName, h]
    rfl
  · intro hc
    have hmem : (',' : Char) ∈ s.toList := by simpa using hc
    have htrim : (',' : Char) ∈ (jsTrim s).toList :=
      mem_jsTrimList_of_neg hmem (by decide)
    simp only [InputNormalizer.lockName]
    rw [if_pos (by simpa using htrim)]
  · by_cases hg : GLOBAL_LOCK_NAME ∈ l
    · rw [if_pos hg]
      exact InputNormalizer.locksGo_append_skip (by decide) l [] hl.1 hl.2
        (fun x _ => rfl) (Or.inr hg)
    · rw [if_neg hg]
      exact InputNormalizer.locksGo_append_new (by decide) (by decide) l [] hl.1 hl.2
        (fun x _ => rfl) rfl hg

theorem C10_lock_name_defaults_witness :
    LockController.retainLocks ["pin"] GLOBAL_LOCK_NAME = ["pin", "[global]"] ∧
    InputNormalizer.lockName (some "a,b")
      = Except.error "Invalid lock name: commas are not allowed" := by
  have h := C10_lock_name_defaults "a,b" ["pin"] (by exact ⟨by decide, by decide⟩)
  refine ⟨?_, h.2.2.1 (by decide)⟩
  have h4 := h.2.2.2
  rw [if_neg (by decide)] at h4
  exact h4

/- ── Decimal rendering (JS number-to-string for integers) ─────────────── -/

/-- One decimal digit as a character. -/
def digitChar : Nat → Char
  | 0 => '0' | 1 => '1' | 2 => '2' | 3 => '3' | 4 => '4'
  | 5 => '5' | 6 => '6' | 7 => '7' | 8 => '8' | 9 => '9'
  | _ => '0'

/-- Big-endian decimal digits of `n`, prepended to `acc`. -/
def natToDigitsGo (n : Nat) (acc : List Char) : List Char :=
  if n < 10 then digitChar (n % 10) :: acc
  else natToDigitsGo (n / 10) (digitChar (n % 10) :: acc)
termination_by n
decreasing_by exact Nat.div_lt_self (by omega) (by omega)

/-- JS `String(n)` for a non-negative integer `n`. -/
def natRepr (n : Nat) : String :=
  String.mk (natToDigitsGo n [])

/-- Value of an all-digits character list. -/
def digitsVal (l : List Char) : Nat :=
  l.foldl (fun a c => a * 10 + (c.toNat - 48)) 0

theorem digitChar_isDigit {d : Nat} (h : d < 10) : (digitChar d).isDigit = true := by
  revert h
  exact (by decide : ∀ d < 10, (digitChar d).isDigit = true) d

theorem digitChar_val {d : Nat} (h : d < 10) : (digitChar d).toNat - 48 = d := by
  revert h
  exact (by decide : ∀ d < 10, (digitChar d).toNat - 48 = d) d

theorem natToDigitsGo_append (n : Nat) :
    ∀ acc, natToDigitsGo n acc = natToDigitsGo n [] ++ acc := by
  induction n using Nat.strong_induction_on with
  | _ n ih =>
    intro acc
    by_cases h : n < 10
    · rw [natToDigitsGo, if_pos h, natToDigitsGo, if_pos h]
      rfl
    · rw [natToDigitsGo, if_neg h]
      conv_rhs => rw [natToDigitsGo, if_neg h]
      have hlt : n / 10 < n := Nat.div_lt_self (by omega) (by omega)
      rw [ih (n / 10) hlt (digitChar (n % 10) :: acc),
          ih (n / 10) hlt [digitChar (n % 10)]]
      simp

theorem natToDigits_all_digits (n : Nat) :
    ∀ c ∈ natToDigitsGo n [], c.isDigit = true := by
  induction n using Nat.strong_induction_on with
  | _ n ih =>
    intro c hc
    by_cases h : n < 10
    · rw [natToDigitsGo, if_pos h] at hc
      rcases List.mem_cons.mp hc with rfl | h0
      · exact digitChar_isDigit (Nat.mod_lt _ (by omega))
      · cases h0
    · rw [natToDigitsGo, if_neg h,
          natToDigitsGo_append (n / 10) [digitChar (n % 10)]] at hc
      rcases List.mem_append.mp hc with h1 | h2
      · exact ih (n / 10) (Nat.div_lt_self (by omega) (by omega)) c h1
      · rcases List.mem_cons.mp h2 with rfl | h0
        · exact digitChar_isDigit (Nat.mod_lt _ (by omega))
        · cases h0

theorem natToDigits_ne_nil (n : Nat) : natToDigitsGo n [] ≠ [] := by
  by_cases h : n < 10
  · rw [natToDigitsGo, if_pos h]; simp
  · rw [natToDigitsGo, if_neg h, natToDigitsGo_append (n / 10) [digitChar (n % 10)]]
    simp

theorem digitsValue_some (l : List Char) (h : ∀ c ∈ l, c.isDigit = true) :
    ∀ a, digitsValue l (some a) = some (l.foldl (fun x c => x * 10 + (c.toNat - 48)) a) := by
  induction l with
  | nil => intro a; rfl
  | cons c rest ih =>
    intro a
    have hc := h c (List.mem_cons_self _ _)
    rw [digitsValue, if_pos hc]
    exact ih (fun x hx => h x (List.mem_cons_of_mem _ hx)) _

theorem digitsValue_none (c : Char) (rest : List Char)
    (hc : c.isDigit = true) (h : ∀ x ∈ rest, x.isDigit = true) :
    digitsValue (c :: rest) none = some (digitsVal (c :: rest)) := by
  rw [digitsValue, if_pos hc]
  rw [digitsValue_some rest h]
  rfl

theorem digitsVal_natToDigits (n : Nat) : digitsVal (natToDigitsGo n []) = n := by
  induction n using Nat.strong_induction_on with
  | _ n ih =>
    by_cases h : n < 10
    · rw [natToDigitsGo, if_pos h]
      show 0 * 10 + ((digitChar (n % 10)).toNat - 48) = n
      rw [digitChar_val (Nat.mod_lt _ (by omega))]
      omega
    · rw [natToDigitsGo, if_neg h, natToDigitsGo_append (n / 10) [digitChar (n % 10)]]
      unfold digitsVal
      rw [List.foldl_append]
      have := ih (n / 10) (Nat.div_lt_self (by omega) (by omega))
      unfold digitsVal at this
      rw [this]
      show (n / 10) * 10 + ((digitChar (n % 10)).toNat - 48) = n
      rw [digitChar_val (Nat.mod_lt _ (by omega))]
      omega

theorem isDigit_not_ws {c : Char} (h : c.isDigit = true) : jsIsWs c = false := by
  cases hv : jsIsWs c
  · rfl
  · exfalso
    have hcases : ((c = ' ' ∨ c = '\t') ∨ c = '\n') ∨ c = '\x0d' := by
      simpa [jsIsWs] using hv
    rcases hcases with ((rfl | rfl) | rfl) | rfl <;> exact absurd h (by decide)

theorem isDigit_ne_sign {c : Char} (h : c.isDigit = true) : c ≠ '-' ∧ c ≠ '+' := by
  constructor <;> intro hc <;> subst hc <;> cases h

theorem dropWhile_cons_digit (rest : List Char) {c : Char} (hc : c.isDigit = true) :
    List.dropWhile jsIsWs (c :: rest) = c :: rest :=
  List.dropWhile_cons_of_neg (by simp [isDigit_not_ws hc])

theorem jsParseInt_natRepr (n : Nat) : jsParseInt (natRepr n) = some (n : Int) := by
  unfold jsParseInt natRepr
  have hD := natToDigits_all_digits n
  cases hd : natToDigitsGo n [] with
  | nil => exact absurd hd (natToDigits_ne_nil n)
  | cons c rest =>
    have hc : c.isDigit = true := hD c (hd ▸ List.mem_cons_self _ _)
    have hrest : ∀ x ∈ rest, x.isDigit = true :=
      fun x hx => hD x (hd ▸ List.mem_cons_of_mem _ hx)
    rw [show (String.mk (c :: rest)).toList = c :: rest from rfl]
    rw [dropWhile_cons_digit _ hc]
    simp only [jsParseIntList]
    rw [if_neg (isDigit_ne_sign hc).1, if_neg (isDigit_ne_sign hc).2]
    rw [digitsValue_none c rest hc hrest]
    have := digitsVal_natToDigits n
    rw [hd] at this
    rw [this]
    rfl

/- ── content-id-allocator.ts ──────────────────────────────────────────── -/

namespace ContentIdAllocator

/-- `normalizeRelativePath`: trim, then replace every backslash by a slash. -/
def normalizeRelativePath (relativeFilePath : String) : String :=
  String.mk ((jsTrimList relativeFilePath.toList).map
    (fun c => if c = '\\' then '/' else c))

/-- The parse outcome of the id→location map file: missing file, a
`JSON.parse` failure, a parse to something other than an object, or an
object whose values may or may not be strings. -/
inductive MapFile where
  | missing
  | unparseable
  | nonObject
  | object (entries : List (String × Option String))
deriving DecidableEq, Repr

/-- Allocator state: raw content of the counter file (`none` = missing) and
the map file. -/
structure AllocState where
  counterFile : Option String
  mapFile : MapFile
deriving DecidableEq, Repr

/-- A freshly initialized reservoir: neither file exists. -/
def allocInitState : AllocState :=
  { counterFile := none, mapFile := .missing }

/-- `readCurrentValue`: missing, blank, unparseable or negative counter
contents are all read as 0. -/
def readCurrentValue (counterFile : Option String) : Nat :=
  match counterFile with
  | none => 0
  | some raw =>
    let t := jsTrim raw
    if t = "" then 0
    else
      match jsParseInt t with
      | none => 0
      | some parsed => if parsed < 0 then 0 else parsed.toNat

/-- `readMapValue`: missing, unparseable or non-object map contents are read
as the empty map; non-string values are dropped; values are normalized. A
map-file value of `some v` stands for the JSON string `v`, `none` for any
non-string JSON value. -/
def readMapValue : MapFile → List (String × String)
  | .missing => []
  | .unparseable => []
  | .nonObject => []
  | .object entries =>
    entries.filterMap (fun e =>
      match e.2 with
      | some v => some (e.1, normalizeRelativePath v)
      | none => none)

/-- Serialize a mapping back to the map file (`writeMapValue`). -/
def writeMapValue (mapping : List (String × String)) : MapFile :=
  .object (mapping.map (fun e => (e.1, some e.2)))

/-- The counter file content produced by `fs.writeFileSync(counterPath,
`${next}\n`)`. -/
def writeCounter (n : Nat) : Option String :=
  some (natRepr n ++ "\n")

/-- `findIdByFileInMap`: first entry bound to the given normalized path. -/
def findIdByFileInMap (mapping : List (String × String)) (normalizedPath : String) :
    Option String :=
  (mapping.find? (fun e => e.2 = normalizedPath)).map (fun e => e.1)

/-- JS object assignment `mapping[id] = path`: replace in place or append. -/
def setEntry : List (String × String) → String → String → List (String × String)
  | [], id, p => [(id, p)]
  | (k, v) :: rest, id, p =>
    if k = id then (k, p) :: rest else (k, v) :: setEntry rest id p

/-- JS `delete mapping[id]`. -/
def delEntry (mapping : List (String × String)) (id : String) :
    List (String × String) :=
  mapping.filter (fun e => e.1 ≠ id)

/-- `nextId()`: read the counter, increment, persist, return the new value. -/
def nextId (s : AllocState) : String × AllocState :=
  let current := readCurrentValue s.counterFile
  let next := current + 1
  (natRepr next, { s with counterFile := writeCounter next })

/-- `assignIdToFile(relativeFilePath)`: reuse the identifier already bound to
the path, else allocate a fresh one and bind it. -/
def assignIdToFile (s : AllocState) (relativeFilePath : String) :
    String × AllocState :=
  let normalizedPath := normalizeRelativePath relativeFilePath
  let mapping := readMapValue s.mapFile
  match findIdByFileInMap mapping normalizedPath with
  | some existing => (existing, s)
  | none =>
    let current := readCurrentValue s.counterFile
    let next := current + 1
    let nextIdStr := natRepr next
    (nextIdStr,
      { counterFile := writeCounter next,
        mapFile := writeMapValue (setEntry mapping nextIdStr normalizedPath) })

/-- `bumpCounterIfNeeded(id)`: raise the counter file to `id` when `id` parses
to a positive number above the current counter. -/
def bumpCounterIfNeeded (counterFile : Option String) (id : String) :
    Option String :=
  match jsParseInt id with
  | none => counterFile
  | some parsedId =>
    if parsedId ≤ 0 then counterFile
    else
      let current := readCurrentValue counterFile
      if parsedId > (current : Int) then writeCounter parsedId.toNat else counterFile

/-- `setMapping(id, relativeFilePath)`. -/
def setMapping (s : AllocState) (id relativeFilePath : String) : AllocState :=
  let normalizedPath := normalizeRelativePath relativeFilePath
  let mapping := readMapValue s.mapFile
  let mapping' := setEntry mapping id normalizedPath
  { counterFile := bumpCounterIfNeeded s.counterFile id,
    mapFile := writeMapValue mapping' }

/-- `removeMappingById(id)`: drop the binding; the counter file is untouched. -/
def removeMappingById (s : AllocState) (id : String) : AllocState :=
  let mapping := readMapValue s.mapFile
  if (mapping.find? (fun e => e.1 = id)).isNone then s
  else { s with mapFile := writeMapValue (delEntry mapping id) }

/-- Parsed value of the persisted counter. -/
def counterVal (s : AllocState) : Nat :=
  readCurrentValue s.counterFile

/-- One mutating ledger operation. -/
inductive AllocOp where
  | next
  | assign (relativeFilePath : String)
  | setM (id relativeFilePath : String)
  | removeM (id : String)
deriving DecidableEq, Repr

/-- Ghost events of a run: `fresh n` when `nextId`/`assignIdToFile` hands out
a brand-new identifier with numeric value `n`; `bound v` when `setMapping`
binds a numeric identifier of value `v`. -/
inductive AllocEvent where
  | fresh (n : Nat)
  | bound (v : Int)
deriving DecidableEq, Repr

def eventVal : AllocEvent → Int
  | .fresh n => (n : Int)
  | .bound v => v

/-- Apply one operation; return the new state and the events it generated. -/
def applyOp (s : AllocState) : AllocOp → AllocState × List AllocEvent
  | .next => ((nextId s).2, [.fresh (counterVal s + 1)])
  | .assign p =>
    if (findIdByFileInMap (readMapValue s.mapFile) (normalizeRelativePath p)).isSome
    then ((assignIdToFile s p).2, [])
    else ((assignIdToFile s p).2, [.fresh (counterVal s + 1)])
  | .setM id p =>
    (setMapping s id p,
      match jsParseInt id with
      | some v => [.bound v]
      | none => [])
  | .removeM id => (removeMappingById s id, [])

/-- Run a list of operations, accumulating events in order. -/
def runAlloc (s : AllocState) : List AllocOp → AllocState × List AllocEvent
  | [] => (s, [])
  | op :: rest =>
    let r1 := applyOp s op
    let r2 := runAlloc r1.1 rest
    (r2.1, r1.2 ++ r2.2)

end ContentIdAllocator

/-- A nonempty all-digits list followed by a trailing newline trims back to
itself. -/
theorem jsTrimList_digits_newline {D : List Char} (hne : D ≠ [])
    (hdig : ∀ c ∈ D, c.isDigit = true) : jsTrimList (D ++ ['\n']) = D := by
  cases hD : D with
  | nil => exact absurd hD hne
  | cons c rest =>
    have hc : c.isDigit = true := hdig c (hD ▸ List.mem_cons_self _ _)
    unfold jsTrimList
    rw [List.cons_append, dropWhile_cons_digit (rest ++ ['\n']) hc,
        ← List.cons_append, List.reverse_append]
    show (List.dropWhile jsIsWs (['\n'].reverse ++ (c :: rest).reverse)).reverse = c :: rest
    rw [show (['\n'] : List Char).reverse = ['\n'] from rfl, List.cons_append,
        List.dropWhile_cons_of_pos (by decide), List.nil_append]
    cases hr : (c :: rest).reverse with
    | nil => simp at hr
    | cons d t =>
      have hd : d.isDigit = true := by
        have hmem : d ∈ (c :: rest).reverse := hr ▸ List.mem_cons_self _ _
        exact hdig d (hD ▸ List.mem_reverse.mp hmem)
      have hstep : List.dropWhile jsIsWs (d :: t) = d :: t :=
        List.dropWhile_cons_of_neg (by simp [isDigit_not_ws hd])
      rw [hstep, ← hr, List.reverse_reverse]

theorem natRepr_ne_empty (n : Nat) : natRepr n ≠ "" := by
  unfold natRepr
  intro h
  have h0 : natToDigitsGo n [] = [] := by
    have := congrArg String.toList h
    simpa using this
  exact natToDigits_ne_nil n h0

theorem jsTrim_natRepr_newline (n : Nat) :
    jsTrim (natRepr n ++ "\n") = natRepr n := by
  unfold jsTrim
  rw [show (natRepr n ++ "\n").toList = natToDigitsGo n [] ++ ['\n'] from rfl,
      jsTrimList_digits_newline (natToDigits_ne_nil n) (natToDigits_all_digits n)]
  rfl

/-- Round trip: the persisted counter value reads back exactly. -/
theorem counter_roundtrip (n : Nat) :
    ContentIdAllocator.readCurrentValue (ContentIdAllocator.writeCounter n) = n := by
  simp only [ContentIdAllocator.writeCounter, ContentIdAllocator.readCurrentValue,
    jsTrim_natRepr_newline, jsParseInt_natRepr]
  rw [if_neg (natRepr_ne_empty n), if_neg (by omega)]
  simp

namespace ContentIdAllocator

theorem counterVal_writeCounter (n : Nat) (mf : MapFile) :
    counterVal { counterFile := writeCounter n, mapFile := mf } = n :=
  counter_roundtrip n

/-- The counter file never goes down: single-operation monotonicity. -/
theorem applyOp_counter_mono (s : AllocState) (op : AllocOp) :
    counterVal s ≤ counterVal (applyOp s op).1 := by
  cases op with
  | next =>
    simp only [applyOp, nextId, counterVal]
    rw [counter_roundtrip]
    omega
  | assign p =>
    cases hm : findIdByFileInMap (readMapValue s.mapFile) (normalizeRelativePath p) with
    | some existing => simp [applyOp, assignIdToFile, hm]
    | none =>
      simp only [applyOp, assignIdToFile, hm, Option.isSome_none, Bool.false_eq_true,
        if_false, counterVal]
      rw [counter_roundtrip]
      omega
  | setM id p =>
    cases hp : jsParseInt id with
    | none => simp [applyOp, setMapping, counterVal, bumpCounterIfNeeded, hp]
    | some v =>
      simp only [applyOp, setMapping, counterVal, bumpCounterIfNeeded, hp]
      by_cases h0 : v ≤ 0
      · rw [if_pos h0]
      · rw [if_neg h0]
        by_cases h1 : v > (readCurrentValue s.counterFile : Int)
        · rw [if_pos h1, counter_roundtrip]
          omega
        · rw [if_neg h1]
  | removeM id =>
    simp only [applyOp, removeMappingById, counterVal]
    by_cases h : ((readMapValue s.mapFile).find? (fun e => e.1 = id)).isNone
    · rw [if_pos h]
    · rw [if_neg h]

/-- Every event of one operation is bounded by the post-operation counter. -/
theorem applyOp_events_le (s : AllocState) (op : AllocOp) :
    ∀ e ∈ (applyOp s op).2, eventVal e ≤ (counterVal (applyOp s op).1 : Int) := by
  cases op with
  | next =>
    intro e he
    simp only [applyOp, List.mem_singleton] at he
    subst he
    simp only [applyOp, eventVal, nextId, counterVal]
    rw [counter_roundtrip]
  | assign p =>
    intro e he
    cases hm : findIdByFileInMap (readMapValue s.mapFile) (normalizeRelativePath p) with
    | some existing => simp [applyOp, hm] at he
    | none =>
      simp only [applyOp, hm, Option.isSome_none, Bool.false_eq_true, if_false,
        List.mem_singleton] at he
      subst he
      simp only [applyOp, hm, Option.isSome_none, Bool.false_eq_true, if_false,
        eventVal, assignIdToFile, counterVal]
      rw [counter_roundtrip]
  | setM id p =>
    intro e he
    cases hp : jsParseInt id with
    | none => simp [applyOp, hp] at he
    | some v =>
      simp only [applyOp, hp, List.mem_singleton] at he
      subst he
      simp only [applyOp, hp, eventVal, setMapping, counterVal, bumpCounterIfNeeded]
      by_cases h0 : v ≤ 0
      · rw [if_pos h0]
        have hnn : (0 : Int) ≤ ((readCurrentValue s.counterFile : Nat) : Int) := by omega
        omega
      · rw [if_neg h0]
        by_cases h1 : v > (readCurrentValue s.counterFile : Int)
        · rw [if_pos h1, counter_roundtrip]
          omega
        · rw [if_neg h1]
          omega
  | removeM id =>
    intro e he
    simp [applyOp] at he

/-- A fresh event of one operation carries exactly the pre-counter plus one. -/
theorem applyOp_fresh_eq (s : AllocState) (op : AllocOp) :
    ∀ e ∈ (applyOp s op).2, ∀ n, e = .fresh n → n = counterVal s + 1 := by
  cases op with
  | next =>
    intro e he n hn
    simp only [applyOp, List.mem_singleton] at he
    subst he
    cases hn
    rfl
  | assign p =>
    intro e he n hn
    cases hm : findIdByFileInMap (readMapValue s.mapFile) (normalizeRelativePath p) with
    | some existing => simp [applyOp, hm] at he
    | none =>
      simp only [applyOp, hm, Option.isSome_none, Bool.false_eq_true, if_false,
        List.mem_singleton] at he
      subst he
      cases hn
      rfl
  | setM id p =>
    intro e he n hn
    cases hp : jsParseInt id with
    | none => simp [applyOp, hp] at he
    | some v =>
      simp only [applyOp, hp, List.mem_singleton] at he
      subst he
      cases hn
  | removeM id =>
    intro e he _ _
    simp [applyOp] at he

/-- At most one event per operation, so each op's event list is pairwise. -/
theorem applyOp_events_pairwise (s : AllocState) (op : AllocOp)
    (R : AllocEvent → AllocEvent → Prop) :
    List.Pairwise R (applyOp s op).2 := by
  cases op with
  | next => simp [applyOp]
  | assign p =>
    by_cases hf : (findIdByFileInMap (readMapValue s.mapFile) (normalizeRelativePath p)).isSome
    · simp [applyOp, hf]
    · simp [applyOp, hf]
  | setM id p =>
    cases hp : jsParseInt id <;> simp [applyOp, hp]
  | removeM id => simp [applyOp]

/-- Later fresh identifiers strictly dominate earlier events. -/
def FreshAfter (a b : AllocEvent) : Prop :=
  ∀ n, b = AllocEvent.fresh n → eventVal a < (n : Int)

/-- Run-level invariant: the counter is monotone, bounds every event, every
fresh event exceeds the starting counter, and fresh identifiers strictly
dominate all earlier events. -/
theorem runAlloc_spec (ops : List AllocOp) : ∀ s : AllocState,
    counterVal s ≤ counterVal (runAlloc s ops).1 ∧
    (∀ e ∈ (runAlloc s ops).2, eventVal e ≤ (counterVal (runAlloc s ops).1 : Int)) ∧
    (∀ e ∈ (runAlloc s ops).2, ∀ n, e = .fresh n → (counterVal s : Int) < n) ∧
    List.Pairwise FreshAfter (runAlloc s ops).2 := by
  induction ops with
  | nil =>
    intro s
    refine ⟨le_refl _, ?_, ?_, ?_⟩ <;> simp [runAlloc]
  | cons op rest ih =>
    intro s
    obtain ⟨ihA, ihB, ihC, ihD⟩ := ih (applyOp s op).1
    have hmono := applyOp_counter_mono s op
    have hle := applyOp_events_le s op
    have hfresh := applyOp_fresh_eq s op
    refine ⟨?_, ?_, ?_, ?_⟩
    · show counterVal s ≤ counterVal (runAlloc (applyOp s op).1 rest).1
      exact hmono.trans ihA
    · intro e he
      simp only [runAlloc, List.mem_append] at he
      rcases he with h1 | h2
      · have hstep := hle e h1
        have hrest : (counterVal (applyOp s op).1 : Int)
            ≤ (counterVal (runAlloc (applyOp s op).1 rest).1 : Int) := by
          exact_mod_cast ihA
        exact hstep.trans hrest
      · exact ihB e h2
    · intro e he n hn
      simp only [runAlloc, List.mem_append] at he
      rcases he with h1 | h2
      · have h3 := hfresh e h1 n hn
        omega
      · have h3 := ihC e h2 n hn
        have hm : (counterVal s : Int) ≤ (counterVal (applyOp s op).1 : Int) := by
          exact_mod_cast hmono
        omega
    · show List.Pairwise FreshAfter ((applyOp s op).2 ++ (runAlloc (applyOp s op).1 rest).2)
      rw [List.pairwise_append]
      refine ⟨applyOp_events_pairwise s op _, ihD, ?_⟩
      intro a ha b hb n hn
      have h1 := hle a ha
      have h2 := ihC b hb n hn
      omega

end ContentIdAllocator

open ContentIdAllocator

theorem natRepr_one : natRepr 1 = "1" := by
  unfold natRepr
  rw [natToDigitsGo, if_pos (by omega)]
  rfl

/-- C2: over any run of ledger operations from a fresh reservoir, the counter
is at least every identifier handed out (`fresh`) or numerically bound
(`bound`); every fresh identifier strictly exceeds all earlier fresh and
bound identifiers (so no identifier at or below a bound one is ever returned
later, and identifiers are never reused after `removeMappingById`);
`removeMappingById` never touches the counter file; `nextId` hands out
exactly counter+1; and no single operation ever lowers the counter. -/
theorem C2_counter_dominates_identifiers (ops : List ContentIdAllocator.AllocOp) :
    (∀ e ∈ (runAlloc allocInitState ops).2,
      eventVal e ≤ (counterVal (runAlloc allocInitState ops).1 : Int)) ∧
    List.Pairwise FreshAfter (runAlloc allocInitState ops).2 ∧
    (∀ (s : AllocState) (id : String),
      (removeMappingById s id).counterFile = s.counterFile) ∧
    (∀ s : AllocState, (nextId s).1 = natRepr (counterVal s + 1) ∧
      jsParseInt (nextId s).1 = some ((counterVal s : Int) + 1)) ∧
    (∀ (s : AllocState) (op : AllocOp), counterVal s ≤ counterVal (applyOp s op).1) := by
  obtain ⟨_, hB, _, hD⟩ := runAlloc_spec ops allocInitState
  refine ⟨hB, hD, ?_, ?_, applyOp_counter_mono⟩
  · intro s id
    simp only [removeMappingById]
    by_cases h : ((readMapValue s.mapFile).find? (fun e => e.1 = id)).isNone
    · rw [if_pos h]
    · rw [if_neg h]
  · intro s
    refine ⟨rfl, ?_⟩
    show jsParseInt (natRepr (counterVal s + 1)) = _
    simp [jsParseInt_natRepr]

/-- C9: the identifier ledger never fails on malformed persistent state: a
missing, blank, unparseable or negative counter file reads as 0; a missing,
unparseable or non-object map file reads as the empty map and non-string
values are dropped; from such a state `nextId` (and the fresh branch of
`assignIdToFile`) resumes numbering at "1". All reads are total functions of
the file contents, so no exception can escape them. -/
theorem C9_malformed_state_reads_as_empty (raw : String) (cf : Option String)
    (mf : ContentIdAllocator.MapFile) (path : String) :
    readCurrentValue none = 0 ∧
    (jsTrim raw = "" → readCurrentValue (some raw) = 0) ∧
    (jsParseInt (jsTrim raw) = none → readCurrentValue (some raw) = 0) ∧
    (∀ p, jsParseInt (jsTrim raw) = some p → p < 0 → readCurrentValue (some raw) = 0) ∧
    readMapValue .missing = [] ∧
    readMapValue .unparseable = [] ∧
    readMapValue .nonObject = [] ∧
    (∀ (entries : List (String × Option String)) (pair : String × String),
      pair ∈ readMapValue (.object entries) → ∃ v, (pair.1, some v) ∈ entries) ∧
    (readCurrentValue cf = 0 → (nextId ⟨cf, mf⟩).1 = "1") ∧
    (readCurrentValue cf = 0 → readMapValue mf = [] →
      (assignIdToFile ⟨cf, mf⟩ path).1 = "1") := by
  refine ⟨rfl, ?_, ?_, ?_, rfl, rfl, rfl, ?_, ?_, ?_⟩
  · intro h
    simp only [readCurrentValue]
    rw [if_pos h]
  · intro h
    simp [readCurrentValue, h]
  · intro p hp hneg
    simp only [readCurrentValue, hp]
    by_cases h0 : jsTrim raw = ""
    · rw [if_pos h0]
    · rw [if_neg h0, if_pos hneg]
  · intro entries pair hmem
    simp only [readMapValue, List.mem_filterMap] at hmem
    obtain ⟨e, he, hval⟩ := hmem
    obtain ⟨k, val⟩ := e
    cases val with
    | none => cases hval
    | some v =>
      have hval' : (k, normalizeRelativePath v) = pair := by simpa using hval
      refine ⟨v, ?_⟩
      rw [show pair.1 = k from by rw [← hval']]
      exact he
  · intro h
    simp only [nextId, h]
    rw [show (0 : Nat) + 1 = 1 from rfl, natRepr_one]
  · intro hc hm
    simp only [assignIdToFile, hm, findIdByFileInMap, List.find?_nil, Option.map_none', hc]
    rw [show (0 : Nat) + 1 = 1 from rfl, natRepr_one]

theorem C9_malformed_state_reads_as_empty_witness :
    readCurrentValue (some "garbage") = 0 ∧
    readCurrentValue (some "-7") = 0 ∧
    (nextId ⟨some "garbage", ContentIdAllocator.MapFile.unparseable⟩).1 = "1" := by
  have h1 := C9_malformed_state_reads_as_empty "garbage" (some "garbage")
    ContentIdAllocator.MapFile.unparseable "a.md"
  have h2 := C9_malformed_state_reads_as_empty "-7" (some "-7")
    ContentIdAllocator.MapFile.unparseable "a.md"
  exact ⟨h1.2.2.1 (by decide), h2.2.2.2.1 (-7) (by decide) (by decide),
    h1.2.2.2.2.2.2.2.2.1 (by decide)⟩

/- ── reservoir-internal-types.ts / lock-controller.ts (range ops) ─────── -/

/-- `ContentLockState` from `reservoir-internal-types.ts`: one tracked item's
metadata record. -/
structure ContentLockState where
  id : String
  locks : List String
  fetchedAt : String
  filePath : Option String
deriving DecidableEq, Repr

namespace LockController

/-- JS truthiness of an optional string option (absent or empty = falsy). -/
def truthy : Option String → Bool
  | none => false
  | some s => s ≠ ""

/-- The boundary string when the option is truthy (`fromId`/`toId` as used in
the `item.id === fromId` comparisons), else `none` (open bound). -/
def boundStr (o : Option String) : Option String :=
  match o with
  | none => none
  | some s => if s = "" then none else some s

/-- `itemIdNum >= fromIdNum && itemIdNum <= toIdNum` with `none` playing
±Infinity. -/
def boundOk (fromB toB : Option Int) (v : Int) : Bool :=
  (match fromB with | none => true | some f => f ≤ v) &&
  (match toB with | none => true | some t => v ≤ t)

/-- One loop iteration body on one item: skip non-numeric ids, apply the
retain/release mutation inside the range; also report whether the item
matched a named boundary. -/
def processItem (normalized : String) (retain : Bool) (fromB toB : Option Int)
    (item : ContentLockState) : ContentLockState × Bool :=
  match jsNumber item.id with
  | none => (item, false)
  | some v =>
    if boundOk fromB toB v then
      ({ item with locks :=
          if retain then InputNormalizer.locks (item.locks ++ [normalized])
          else item.locks.filter (fun name => name ≠ normalized) }, true)
    else (item, false)

/-- `fromId && item.id === fromId` for a numeric item. -/
def itemFound (sOpt : Option String) (item : ContentLockState) : Bool :=
  match jsNumber item.id with
  | none => false
  | some _ => if sOpt = some item.id then true else false

/-- Scan one channel's items: mutated items, (foundFrom, foundTo, count). -/
def scanItems (normalized : String) (retain : Bool) (fromB toB : Option Int)
    (fromS toS : Option String) :
    List ContentLockState → List ContentLockState × (Bool × Bool × Nat)
  | [] => ([], (false, false, 0))
  | item :: rest =>
    let r1 := processItem normalized retain fromB toB item
    let r2 := scanItems normalized retain fromB toB fromS toS rest
    (r1.1 :: r2.1,
      (itemFound fromS item || r2.2.1,
       itemFound toS item || r2.2.2.1,
       (if r1.2 then 1 else 0) + r2.2.2.2))

/-- Scan every selected channel. -/
def scanChans (normalized : String) (retain : Bool) (fromB toB : Option Int)
    (fromS toS : Option String) :
    List (String × List ContentLockState) →
      List (String × List ContentLockState) × (Bool × Bool × Nat)
  | [] => ([], (false, false, 0))
  | (cid, items) :: rest =>
    let r1 := scanItems normalized retain fromB toB fromS toS items
    let r2 := scanChans normalized retain fromB toB fromS toS rest
    ((cid, r1.1) :: r2.1,
      (r1.2.1 || r2.2.1, r1.2.2.1 || r2.2.2.1, r1.2.2.2 + r2.2.2.2))

/-- `channelId ? [viewChannel(channelId)] : listChannels()`: a missing channel
id raises `Channel not found`. -/
def resolveChans (channels : List (String × List ContentLockState)) :
    Option String → Except String (List (String × List ContentLockState))
  | none => .ok channels
  | some cid =>
    match channels.find? (fun c => c.1 = cid) with
    | some c => .ok [c]
    | none => .error ("Channel not found: " ++ cid)

/-- `const fromIdNum = fromId ? Number(fromId) : -Infinity` together with the
`isNaN` validation (`none` = open bound). -/
def resolveBound (o : Option String) (msg : String) : Except String (Option Int) :=
  match boundStr o with
  | none => .ok none
  | some s =>
    match jsNumber s with
    | none => .error (msg ++ s)
    | some v => .ok (some v)

/-- Options record of `updateContentLockRange`. -/
structure RangeOptions where
  fromId : Option String
  toId : Option String
  channelId : Option String
  lockName : Option String
  retain : Bool

/-- `fromIdNum > toIdNum` (never true at an open ±Infinity bound). -/
def rangeInverted (fromB toB : Option Int) : Bool :=
  match fromB, toB with
  | some f, some t => f > t
  | _, _ => false

/-- `updateContentLockRange`: validations (lock name, channel, numeric
boundaries, range order) happen before the scan; the boundary-existence
errors are raised after the scan but before `saveMetadata`, so an error
result carries no metadata write — the returned channel list is the set of
metadata files written (with their new contents), produced only on success. -/
def updateContentLockRange (channels : List (String × List ContentLockState))
    (opts : RangeOptions) :
    Except String (List (String × List ContentLockState) × Nat) :=
  match InputNormalizer.lockName opts.lockName with
  | .error e => .error e
  | .ok normalized =>
    match resolveChans channels opts.channelId with
    | .error e => .error e
    | .ok chans =>
      let fromS := boundStr opts.fromId
      let toS := boundStr opts.toId
      match resolveBound opts.fromId "Invalid start ID: " with
      | .error e => .error e
      | .ok fromB =>
        match resolveBound opts.toId "Invalid end ID: " with
        | .error e => .error e
        | .ok toB =>
          if rangeInverted fromB toB then
            .error ("Invalid range: fromId (" ++ fromS.getD "" ++ ") comes after toId ("
              ++ toS.getD "" ++ ")")
          else
            let r := scanChans normalized opts.retain fromB toB fromS toS chans
            if fromS.isSome && !r.2.1 then
              .error ("Start ID not found: " ++ fromS.getD "")
            else if toS.isSome && !r.2.2.1 then
              .error ("End ID not found: " ++ toS.getD "")
            else .ok (r.1, r.2.2.2)

theorem scanItems_foundFrom (normalized : String) (retain : Bool)
    (fromB toB : Option Int) (fromS toS : Option String) :
    ∀ items : List ContentLockState,
      (scanItems normalized retain fromB toB fromS toS items).2.1 = true ↔
        ∃ item ∈ items, itemFound fromS item = true := by
  intro items
  induction items with
  | nil => simp [scanItems]
  | cons item rest ih =>
    simp only [scanItems, Bool.or_eq_true, ih, List.mem_cons]
    constructor
    · rintro (h | ⟨x, hx, hf⟩)
      · exact ⟨item, Or.inl rfl, h⟩
      · exact ⟨x, Or.inr hx, hf⟩
    · rintro ⟨x, rfl | hx, hf⟩
      · exact Or.inl hf
      · exact Or.inr ⟨x, hx, hf⟩

theorem scanItems_foundTo (normalized : String) (retain : Bool)
    (fromB toB : Option Int) (fromS toS : Option String) :
    ∀ items : List ContentLockState,
      (scanItems normalized retain fromB toB fromS toS items).2.2.1 = true ↔
        ∃ item ∈ items, itemFound toS item = true := by
  intro items
  induction items with
  | nil => simp [scanItems]
  | cons item rest ih =>
    simp only [scanItems, Bool.or_eq_true, ih, List.mem_cons]
    constructor
    · rintro (h | ⟨x, hx, hf⟩)
      · exact ⟨item, Or.inl rfl, h⟩
      · exact ⟨x, Or.inr hx, hf⟩
    · rintro ⟨x, rfl | hx, hf⟩
      · exact Or.inl hf
      · exact Or.inr ⟨x, hx, hf⟩

theorem scanChans_foundFrom (normalized : String) (retain : Bool)
    (fromB toB : Option Int) (fromS toS : Option String) :
    ∀ chans : List (String × List ContentLockState),
      (scanChans normalized retain fromB toB fromS toS chans).2.1 = true ↔
        ∃ chan ∈ chans, ∃ item ∈ chan.2, itemFound fromS item = true := by
  intro chans
  induction chans with
  | nil => simp [scanChans]
  | cons chan rest ih =>
    obtain ⟨cid, items⟩ := chan
    simp only [scanChans, Bool.or_eq_true, ih, List.mem_cons,
      scanItems_foundFrom]
    constructor
    · rintro (⟨x, hx, hf⟩ | ⟨c, hc, x, hx, hf⟩)
      · exact ⟨(cid, items), Or.inl rfl, x, hx, hf⟩
      · exact ⟨c, Or.inr hc, x, hx, hf⟩
    · rintro ⟨c, rfl | hc, x, hx, hf⟩
      · exact Or.inl ⟨x, hx, hf⟩
      · exact Or.inr ⟨c, hc, x, hx, hf⟩

theorem scanChans_foundTo (normalized : String) (retain : Bool)
    (fromB toB : Option Int) (fromS toS : Option String) :
    ∀ chans : List (String × List ContentLockState),
      (scanChans normalized retain fromB toB fromS toS chans).2.2.1 = true ↔
        ∃ chan ∈ chans, ∃ item ∈ chan.2, itemFound toS item = true := by
  intro chans
  induction chans with
  | nil => simp [scanChans]
  | cons chan rest ih =>
    obtain ⟨cid, items⟩ := chan
    simp only [scanChans, Bool.or_eq_true, ih, List.mem_cons,
      scanItems_foundTo]
    constructor
    · rintro (⟨x, hx, hf⟩ | ⟨c, hc, x, hx, hf⟩)
      · exact ⟨(cid, items), Or.inl rfl, x, hx, hf⟩
      · exact ⟨c, Or.inr hc, x, hx, hf⟩
    · rintro ⟨c, rfl | hc, x, hx, hf⟩
      · exact Or.inl ⟨x, hx, hf⟩
      · exact Or.inr ⟨c, hc, x, hx, hf⟩

/-- A boundary string matches an item iff the item's id is numeric and equals
it verbatim. -/
theorem itemFound_iff (s : String) (item : ContentLockState) :
    itemFound (some s) item = true ↔ (jsNumber item.id).isSome ∧ item.id = s := by
  unfold itemFound
  cases h : jsNumber item.id with
  | none => simp
  | some v =>
    simp only [Option.isSome_some, true_and]
    by_cases he : (some s : Option String) = some item.id
    · rw [if_pos he]
      simp only [Option.some.injEq] at he
      simp [he]
    · rw [if_neg he]
      simp only [Option.some.injEq] at he
      exact ⟨(fun h2 => by cases h2), fun h2 => absurd h2.symm he⟩

/-- A channel list contains a numeric-id item matching the boundary string. -/
def HasCandidate (chans : List (String × List ContentLockState)) (s : String) : Prop :=
  ∃ chan ∈ chans, ∃ item ∈ chan.2, (jsNumber item.id).isSome ∧ item.id = s

theorem scanChans_foundFrom_false (normalized : String) (retain : Bool)
    (fromB toB : Option Int) (toS : Option String) (fs : String)
    (chans : List (String × List ContentLockState))
    (h : ¬ HasCandidate chans fs) :
    (scanChans normalized retain fromB toB (some fs) toS chans).2.1 = false := by
  rw [Bool.eq_false_iff]
  intro htrue
  rw [scanChans_foundFrom] at htrue
  obtain ⟨chan, hc, item, hi, hf⟩ := htrue
  exact h ⟨chan, hc, item, hi, (itemFound_iff fs item).mp hf⟩

theorem scanChans_foundFrom_true (normalized : String) (retain : Bool)
    (fromB toB : Option Int) (toS : Option String) (fs : String)
    (chans : List (String × List ContentLockState))
    (h : HasCandidate chans fs) :
    (scanChans normalized retain fromB toB (some fs) toS chans).2.1 = true := by
  rw [scanChans_foundFrom]
  obtain ⟨chan, hc, item, hi, hf⟩ := h
  exact ⟨chan, hc, item, hi, (itemFound_iff fs item).mpr hf⟩

theorem scanChans_foundTo_false (normalized : String) (retain : Bool)
    (fromB toB : Option Int) (fromS : Option String) (ts : String)
    (chans : List (String × List ContentLockState))
    (h : ¬ HasCandidate chans ts) :
    (scanChans normalized retain fromB toB fromS (some ts) chans).2.2.1 = false := by
  rw [Bool.eq_false_iff]
  intro htrue
  rw [scanChans_foundTo] at htrue
  obtain ⟨chan, hc, item, hi, hf⟩ := htrue
  exact h ⟨chan, hc, item, hi, (itemFound_iff ts item).mp hf⟩

theorem scanChans_foundTo_true (normalized : String) (retain : Bool)
    (fromB toB : Option Int) (fromS : Option String) (ts : String)
    (chans : List (String × List ContentLockState))
    (h : HasCandidate chans ts) :
    (scanChans normalized retain fromB toB fromS (some ts) chans).2.2.1 = true := by
  rw [scanChans_foundTo]
  obtain ⟨chan, hc, item, hi, hf⟩ := h
  exact ⟨chan, hc, item, hi, (itemFound_iff ts item).mpr hf⟩

end LockController

/-- C4: for every `retainContentRange`/`releaseContentRange` call: a supplied
boundary id absent among the candidate (numeric-id) items fails with
"Start ID not found"/"End ID not found" and produces no metadata write; a
non-numeric boundary, or `fromId` numerically above `toId`, fails with a
validation error before any mutation; the metadata write set (the scanned
channels with their mutated items) is produced only when every validation
passes. -/
theorem C4_range_boundary_validation
    (channels chans : List (String × List ContentLockState))
    (opts : LockController.RangeOptions) (normalized : String)
    (hname : InputNormalizer.lockName opts.lockName = Except.ok normalized)
    (hchan : LockController.resolveChans channels opts.channelId = Except.ok chans) :
    (∀ e, LockController.resolveBound opts.fromId "Invalid start ID: " = .error e →
      LockController.updateContentLockRange channels opts = .error e) ∧
    (∀ fb e, LockController.resolveBound opts.fromId "Invalid start ID: " = .ok fb →
      LockController.resolveBound opts.toId "Invalid end ID: " = .error e →
      LockController.updateContentLockRange channels opts = .error e) ∧
    (∀ fb tb, LockController.resolveBound opts.fromId "Invalid start ID: " = .ok fb →
      LockController.resolveBound opts.toId "Invalid end ID: " = .ok tb →
      LockController.rangeInverted fb tb = true →
      LockController.updateContentLockRange channels opts
        = .error ("Invalid range: fromId (" ++ (LockController.boundStr opts.fromId).getD ""
            ++ ") comes after toId (" ++ (LockController.boundStr opts.toId).getD "" ++ ")")) ∧
    (∀ fb tb fs, LockController.resolveBound opts.fromId "Invalid start ID: " = .ok fb →
      LockController.resolveBound opts.toId "Invalid end ID: " = .ok tb →
      LockController.rangeInverted fb tb = false →
      LockController.boundStr opts.fromId = some fs →
      ¬ LockController.HasCandidate chans fs →
      LockController.updateContentLockRange channels opts
        = .error ("Start ID not found: " ++ fs)) ∧
    (∀ fb tb ts, LockController.resolveBound opts.fromId "Invalid start ID: " = .ok fb →
      LockController.resolveBound opts.toId "Invalid end ID: " = .ok tb →
      LockController.rangeInverted fb tb = false →
      (LockController.boundStr opts.fromId = none ∨
        ∃ fs, LockController.boundStr opts.fromId = some fs ∧
          LockController.HasCandidate chans fs) →
      LockController.boundStr opts.toId = some ts →
      ¬ LockController.HasCandidate chans ts →
      LockController.updateContentLockRange channels opts
        = .error ("End ID not found: " ++ ts)) ∧
    (∀ fb tb, LockController.resolveBound opts.fromId "Invalid start ID: " = .ok fb →
      LockController.resolveBound opts.toId "Invalid end ID: " = .ok tb →
      LockController.rangeInverted fb tb = false →
      (LockController.boundStr opts.fromId = none ∨
        ∃ fs, LockController.boundStr opts.fromId = some fs ∧
          LockController.HasCandidate chans fs) →
      (LockController.boundStr opts.toId = none ∨
        ∃ ts, LockController.boundStr opts.toId = some ts ∧
          LockController.HasCandidate chans ts) →
      LockController.updateContentLockRange channels opts
        = .ok ((LockController.scanChans normalized opts.retain fb tb
                 (LockController.boundStr opts.fromId)
                 (LockController.boundStr opts.toId) chans).1,
               (LockController.scanChans normalized opts.retain fb tb
                 (LockController.boundStr opts.fromId)
                 (LockController.boundStr opts.toId) chans).2.2.2)) := by
  refine ⟨?_, ?_, ?_, ?_, ?_, ?_⟩
  · intro e he
    simp only [LockController.updateContentLockRange, hname, hchan, he]
  · intro fb e hfb he
    simp only [LockController.updateContentLockRange, hname, hchan, hfb, he]
  · intro fb tb hfb htb hinv
    simp only [LockController.updateContentLockRange, hname, hchan, hfb, htb, hinv,
      if_true]
  · intro fb tb fs hfb htb hinv hfs hno
    have hflag := LockController.scanChans_foundFrom_false normalized opts.retain fb tb
      (LockController.boundStr opts.toId) fs chans hno
    simp only [LockController.updateContentLockRange, hname, hchan, hfb, htb, hinv,
      Bool.false_eq_true, if_false, hfs, hflag, Option.isSome_some, Bool.not_false,
      Bool.and_true, if_true, Option.getD_some]
  · intro fb tb ts hfb htb hinv hfrom hts hno
    have hflagTo := LockController.scanChans_foundTo_false normalized opts.retain fb tb
      (LockController.boundStr opts.fromId) ts chans hno
    have hcondFrom : ((LockController.boundStr opts.fromId).isSome &&
        !(LockController.scanChans normalized opts.retain fb tb
          (LockController.boundStr opts.fromId) (some ts)
          chans).2.1) = false := by
      rcases hfrom with hnone | ⟨fs, hfs, hcand⟩
      · rw [hnone]
        rfl
      · rw [hfs]
        have htr := LockController.scanChans_foundFrom_true normalized opts.retain fb tb
          (some ts) fs chans hcand
        simp [htr]
    simp only [LockController.updateContentLockRange, hname, hchan, hfb, htb, hinv,
      Bool.false_eq_true, if_false, hts, hcondFrom, hflagTo, Option.isSome_some,
      Bool.not_false, Bool.and_true, if_true, Option.getD_some]
  · intro fb tb hfb htb hinv hfrom hto
    have hcondFrom : ((LockController.boundStr opts.fromId).isSome &&
        !(LockController.scanChans normalized opts.retain fb tb
          (LockController.boundStr opts.fromId) (LockController.boundStr opts.toId)
          chans).2.1) = false := by
      rcases hfrom with hnone | ⟨fs, hfs, hcand⟩
      · rw [hnone]
        rfl
      · rw [hfs]
        have htr := LockController.scanChans_foundFrom_true normalized opts.retain fb tb
          (LockController.boundStr opts.toId) fs chans hcand
        simp [htr]
    have hcondTo : ((LockController.boundStr opts.toId).isSome &&
        !(LockController.scanChans normalized opts.retain fb tb
          (LockController.boundStr opts.fromId) (LockController.boundStr opts.toId)
          chans).2.2.1) = false := by
      rcases hto with hnone | ⟨ts, hts, hcand⟩
      · rw [hnone]
        rfl
      · rw [hts]
        have htr := LockController.scanChans_foundTo_true normalized opts.retain fb tb
          (LockController.boundStr opts.fromId) ts chans hcand
        simp [htr]
    simp only [LockController.updateContentLockRange, hname, hchan, hfb, htb, hinv,
      Bool.false_eq_true, if_false, hcondFrom, hcondTo]

theorem C4_range_boundary_validation_witness :
    LockController.updateContentLockRange
      [("ch1", [⟨"1", [], "t1", none⟩, ⟨"2", [], "t2", none⟩])]
      ⟨some "999", none, none, none, true⟩
      = Except.error ("Start ID not found: " ++ "999") := by
  have h := C4_range_boundary_validation
    [("ch1", [⟨"1", [], "t1", none⟩, ⟨"2", [], "t2", none⟩])]
    [("ch1", [⟨"1", [], "t1", none⟩, ⟨"2", [], "t2", none⟩])]
    ⟨some "999", none, none, none, true⟩ GLOBAL_LOCK_NAME rfl rfl
  refine h.2.2.2.1 (some 999) none "999" rfl rfl rfl rfl ?_
  rintro ⟨chan, hc, item, hi, _, hid⟩
  simp only [List.mem_singleton] at hc
  subst hc
  simp only [List.mem_cons, List.mem_singleton, List.not_mem_nil] at hi
  rcases hi with rfl | rfl | hfalse
  · exact absurd hid (by decide)
  · exact absurd hid (by decide)
  · exact hfalse

/- ── background-fetcher.ts (scheduler) ────────────────────────────────── -/

/-- Replace-or-append assignment on a string-keyed association list (JS
object/record field assignment). -/
def setKV {α : Type} : List (String × α) → String → α → List (String × α)
  | [], k, v => [(k, v)]
  | (k0, v0) :: rest, k, v =>
    if k0 = k then (k0, v) :: rest else (k0, v0) :: setKV rest k v

/-- JS `delete obj[k]`. -/
def delKV {α : Type} (m : List (String × α)) (k : String) : List (String × α) :=
  m.filter (fun e => e.1 ≠ k)

/-- JS `obj[k]` (undefined = none). -/
def lookupKV {α : Type} (m : List (String × α)) (k : String) : Option α :=
  (m.find? (fun e => e.1 = k)).map (fun e => e.2)

theorem lookupKV_setKV_self {α : Type} (k : String) (v : α) :
    ∀ m : List (String × α), lookupKV (setKV m k v) k = some v := by
  intro m
  induction m with
  | nil => simp [setKV, lookupKV]
  | cons e rest ih =>
    obtain ⟨k0, v0⟩ := e
    by_cases h : k0 = k
    · simp [setKV, lookupKV, h]
    · simp only [setKV, if_neg h, lookupKV, List.find?]
      simp only [show (decide (k0 = k)) = false by simpa using h]
      exact ih

namespace BackgroundFetcher

/-- The scheduling-relevant projection of a `Channel`: id, refresh interval
and optional rate limit, in seconds. -/
structure SchedChannel where
  id : String
  refreshInterval : Int
  rateLimitInterval : Option Int
deriving DecidableEq, Repr

/-- `WorkerState` (scheduling part): per-channel last success, last attempt
and last error records. ISO timestamps are modelled by their epoch-millisecond
values (the code round-trips them through `toISOString`/`new Date().getTime()`). -/
structure WorkerState where
  lastFetchAtByChannel : List (String × Int)
  lastAttemptAtByChannel : List (String × Int)
  lastErrorByChannel : List (String × String)
deriving DecidableEq, Repr

/-- `channelPollInterval`: `max(refreshInterval or default, positive rate
limit or 0)`, in seconds. -/
def channelPollInterval (c : SchedChannel) : Int :=
  let refreshInterval :=
    if c.refreshInterval > 0 then c.refreshInterval
    else (DEFAULT_REFRESH_INTERVAL_SECONDS : Int)
  let rateLimit :=
    match c.rateLimitInterval with
    | some r => if r > 0 then r else 0
    | none => 0
  max refreshInterval rateLimit

/-- The due check of `runScheduledFetchTick`: no recorded attempt, or elapsed
time at least the poll interval in milliseconds. -/
def dueForFetch (state : WorkerState) (c : SchedChannel) (nowMs : Int) : Bool :=
  match lookupKV state.lastAttemptAtByChannel c.id with
  | none => true
  | some lastAttempt => !(nowMs - lastAttempt < channelPollInterval c * 1000)

/-- The attempt body: record "attempt now" first, then fetch; on success
record the fetch time and clear the error, on failure record the message. -/
def attemptChannel (fetch : String → Except String Unit) (nowMs : Int)
    (state : WorkerState) (c : SchedChannel) : WorkerState :=
  let st1 := { state with
    lastAttemptAtByChannel := setKV state.lastAttemptAtByChannel c.id nowMs }
  match fetch c.id with
  | .ok _ =>
    { st1 with
      lastFetchAtByChannel := setKV st1.lastFetchAtByChannel c.id nowMs,
      lastErrorByChannel := delKV st1.lastErrorByChannel c.id }
  | .error msg =>
    { st1 with lastErrorByChannel := setKV st1.lastErrorByChannel c.id msg }

/-- One channel's share of a tick; the boolean reports whether `fetchChannel`
was invoked. -/
def runTickChannel (fetch : String → Except String Unit) (nowMs : Int)
    (state : WorkerState) (c : SchedChannel) : WorkerState × Bool :=
  if dueForFetch state c nowMs then (attemptChannel fetch nowMs state c, true)
  else (state, false)

/-- `runScheduledFetchTick` over the channel list (the preceding
`syncContentTracking()` call touches no scheduler state). -/
def runScheduledFetchTick (fetch : String → Except String Unit) (nowMs : Int)
    (state : WorkerState) : List SchedChannel → WorkerState
  | [] => state
  | c :: rest =>
    runScheduledFetchTick fetch nowMs (runTickChannel fetch nowMs state c).1 rest

theorem attemptChannel_lastAttempt (fetch : String → Except String Unit)
    (nowMs : Int) (state : WorkerState) (c : SchedChannel) :
    (attemptChannel fetch nowMs state c).lastAttemptAtByChannel
      = setKV state.lastAttemptAtByChannel c.id nowMs := by
  unfold attemptChannel
  cases fetch c.id <;> rfl

/-- The attempt schedule after one channel step depends only on the previous
attempt schedule, never on the fetch outcome. -/
theorem runTickChannel_attempt_agnostic (f g : String → Except String Unit)
    (nowMs : Int) (s1 s2 : WorkerState) (c : SchedChannel)
    (h : s1.lastAttemptAtByChannel = s2.lastAttemptAtByChannel) :
    (runTickChannel f nowMs s1 c).1.lastAttemptAtByChannel
      = (runTickChannel g nowMs s2 c).1.lastAttemptAtByChannel := by
  have hdue : dueForFetch s1 c nowMs = dueForFetch s2 c nowMs := by
    unfold dueForFetch
    rw [h]
  unfold runTickChannel
  by_cases hd : dueForFetch s1 c nowMs
  · rw [if_pos hd, if_pos (hdue ▸ hd)]
    rw [attemptChannel_lastAttempt, attemptChannel_lastAttempt, h]
  · rw [if_neg hd, if_neg (hdue ▸ hd)]
    exact h

theorem runScheduledFetchTick_attempt_agnostic (f g : String → Except String Unit)
    (nowMs : Int) :
    ∀ (channels : List SchedChannel) (s1 s2 : WorkerState),
      s1.lastAttemptAtByChannel = s2.lastAttemptAtByChannel →
      (runScheduledFetchTick f nowMs s1 channels).lastAttemptAtByChannel
        = (runScheduledFetchTick g nowMs s2 channels).lastAttemptAtByChannel := by
  intro channels
  induction channels with
  | nil => intro s1 s2 h; exact h
  | cons c rest ih =>
    intro s1 s2 h
    exact ih _ _ (runTickChannel_attempt_agnostic f g nowMs s1 s2 c h)

end BackgroundFetcher

/-- C5: on a scheduler tick, a channel's fetch is invoked iff it has no
recorded attempt or the elapsed time since its last recorded attempt is at
least `max(refreshInterval, rateLimitInterval)` in milliseconds
(`channelPollInterval * 1000`); the attempt timestamp is recorded at the
moment of the attempt whatever the fetch outcome, an undue channel's state is
untouched, and a failing oracle yields exactly the same attempt schedule as a
succeeding one. -/
theorem C5_scheduler_retry_cadence (fetch g : String → Except String Unit)
    (nowMs : Int) (state : BackgroundFetcher.WorkerState)
    (c : BackgroundFetcher.SchedChannel)
    (channels : List BackgroundFetcher.SchedChannel) :
    ((BackgroundFetcher.runTickChannel fetch nowMs state c).2 = true ↔
      (lookupKV state.lastAttemptAtByChannel c.id = none ∨
        ∃ last, lookupKV state.lastAttemptAtByChannel c.id = some last ∧
          nowMs - last ≥ BackgroundFetcher.channelPollInterval c * 1000)) ∧
    ((BackgroundFetcher.runTickChannel fetch nowMs state c).2 = true →
      lookupKV (BackgroundFetcher.runTickChannel fetch nowMs state c).1.lastAttemptAtByChannel
        c.id = some nowMs) ∧
    ((BackgroundFetcher.runTickChannel fetch nowMs state c).2 = false →
      (BackgroundFetcher.runTickChannel fetch nowMs state c).1 = state) ∧
    ((BackgroundFetcher.runScheduledFetchTick fetch nowMs state channels).lastAttemptAtByChannel
      = (BackgroundFetcher.runScheduledFetchTick g nowMs state channels).lastAttemptAtByChannel) := by
  refine ⟨?_, ?_, ?_,
    BackgroundFetcher.runScheduledFetchTick_attempt_agnostic fetch g nowMs channels
      state state rfl⟩
  · unfold BackgroundFetcher.runTickChannel BackgroundFetcher.dueForFetch
    cases hl : lookupKV state.lastAttemptAtByChannel c.id with
    | none => simp
    | some last =>
      by_cases hlt : nowMs - last < BackgroundFetcher.channelPollInterval c * 1000
      · rw [if_neg (by simp [hlt])]
        simp only [Bool.false_eq_true, false_iff]
        rintro (hn | ⟨last', hl', hge⟩)
        · cases hn
        · cases hl'
          omega
      · rw [if_pos (by simp [hlt])]
        simp only [true_iff]
        exact Or.inr ⟨last, rfl, by omega⟩
  · intro hinv
    unfold BackgroundFetcher.runTickChannel at hinv ⊢
    by_cases hd : BackgroundFetcher.dueForFetch state c nowMs
    · rw [if_pos hd]
      simp only [BackgroundFetcher.attemptChannel_lastAttempt]
      exact lookupKV_setKV_self c.id nowMs state.lastAttemptAtByChannel
    · rw [if_neg hd] at hinv
      cases hinv
  · intro hinv
    unfold BackgroundFetcher.runTickChannel at hinv ⊢
    by_cases hd : BackgroundFetcher.dueForFetch state c nowMs
    · rw [if_pos hd] at hinv
      cases hinv
    · rw [if_neg hd]

theorem C5_scheduler_retry_cadence_witness :
    (BackgroundFetcher.runTickChannel (fun _ => Except.error "boom") 5000
      ⟨[], [], []⟩ ⟨"ch1", 1, some 10⟩).2 = true ∧
    lookupKV (BackgroundFetcher.runTickChannel (fun _ => Except.error "boom") 5000
      ⟨[], [], []⟩ ⟨"ch1", 1, some 10⟩).1.lastAttemptAtByChannel "ch1" = some 5000 := by
  have h := C5_scheduler_retry_cadence (fun _ => Except.error "boom")
    (fun _ => Except.ok ()) 5000 ⟨[], [], []⟩ ⟨"ch1", 1, some 10⟩ []
  have h1 := h.1.mpr (Or.inl rfl)
  exact ⟨h1, h.2.1 h1⟩

/- ── eviction-controller.ts ───────────────────────────────────────────── -/

/-- `toLowerCase` on one ASCII character. -/
def jsToLowerChar (c : Char) : Char :=
  if 'A' ≤ c && c ≤ 'Z' then Char.ofNat (c.toNat + 32) else c

/-- `path.toLowerCase().endsWith('.md')`. -/
def lowerEndsWithMd (p : String) : Bool :=
  match (p.toList.map jsToLowerChar).reverse with
  | 'd' :: 'm' :: '.' :: _ => true
  | _ => false

namespace EvictionController

/-- The candidate record built by `clean()` for an unlocked document. -/
structure Candidate where
  id : String
  channelId : String
  fetchedAt : String
  locks : List String
  filePath : String
deriving DecidableEq, Repr

/-- `readContentFilesById` resolution of one metadata record: ledger binding
first, stored `filePath` as fallback; the file must exist and be a `.md`
file. Paths are the normalized relative paths (joining with the reservoir
root is injective). -/
def parsedPathForItem (mapping : List (String × String)) (fs : List (String × Nat))
    (item : ContentLockState) : Option String :=
  match (match lookupKV mapping item.id with
          | some p => some p
          | none => item.filePath) with
  | none => none
  | some candidate =>
    if (lookupKV fs candidate).isSome && lowerEndsWithMd candidate then some candidate
    else none

/-- The `metadataById` JS `Map`: first-insertion order, later values win. -/
def metadataById (items : List ContentLockState) : List (String × ContentLockState) :=
  items.foldl (fun acc item => setKV acc item.id item) []

/-- `readContentFilesById`: id → resolved existing file path. -/
def parsedById (mapping : List (String × String)) (fs : List (String × Nat))
    (items : List ContentLockState) : List (String × String) :=
  (metadataById items).filterMap
    (fun e => (parsedPathForItem mapping fs e.2).map (fun p => (e.1, p)))

/-- One channel's eviction candidates: items whose file resolves and whose
lock set is empty. -/
def channelCandidates (mapping : List (String × String)) (fs : List (String × Nat))
    (cid : String) (items : List ContentLockState) : List Candidate :=
  items.filterMap (fun item =>
    match lookupKV (parsedById mapping fs items) item.id with
    | none => none
    | some p =>
      if item.locks = [] then
        some { id := item.id, channelId := cid, fetchedAt := item.fetchedAt,
               locks := item.locks, filePath := p }
      else none)

/-- Candidates across every channel, in channel order. -/
def allCandidates (mapping : List (String × String)) (fs : List (String × Nat))
    (channels : List (String × List ContentLockState)) : List Candidate :=
  channels.flatMap (fun c => channelCandidates mapping fs c.1 c.2)

/-- `candidates.sort` by fetch timestamp ascending (stable, as JS `sort`);
`new Date(s).getTime()` is the uninterpreted parameter `dateMs`. -/
def sortCandidates (dateMs : String → Int) (cands : List Candidate) : List Candidate :=
  cands.mergeSort (fun a b => dateMs a.fetchedAt ≤ dateMs b.fetchedAt)

/-- The deletion loop: stop as soon as the running total is within budget;
skip candidates whose file has vanished; otherwise subtract the file's size,
unlink it and record the deletion. Returns (final running total, final
filesystem, deletions in order with their sizes). -/
def cleanLoop (maxBytes : Int) :
    Int → List Candidate → List (String × Nat) →
      Int × List (String × Nat) × List (Candidate × Nat)
  | total, [], fs => (total, fs, [])
  | total, cand :: rest, fs =>
    if total ≤ maxBytes then (total, fs, [])
    else
      match lookupKV fs cand.filePath with
      | none => cleanLoop maxBytes total rest fs
      | some sz =>
        let r := cleanLoop maxBytes (total - (sz : Int)) rest (delKV fs cand.filePath)
        (r.1, r.2.1, (cand, sz) :: r.2.2)

/-- `ChannelController.removeFromMetadata`. -/
def removeFromMetadata (channels : List (String × List ContentLockState))
    (cid contentId : String) : List (String × List ContentLockState) :=
  channels.map (fun c =>
    if c.1 = cid then (c.1, c.2.filter (fun i => i.id ≠ contentId)) else c)

/-- Total size of the tracked content files. -/
def sumSizes (fs : List (String × Nat)) : Int :=
  fs.foldl (fun acc e => acc + (e.2 : Int)) 0

/-- Result of a `clean()` pass. -/
structure CleanResult where
  channels : List (String × List ContentLockState)
  fs : List (String × Nat)
  deleted : List (Candidate × Nat)
  finalTotal : Int
deriving DecidableEq, Repr

/-- `EvictionController.clean`: no-op without a truthy size budget or when the
current size (tracked files plus `extraBytes` of untracked content such as
resource directories) is within budget; otherwise delete sorted unlocked
candidates until within budget or exhausted, dropping each deleted id from
its channel's metadata. -/
def clean (maxSizeMB : Option Nat) (dateMs : String → Int)
    (mapping : List (String × String))
    (channels : List (String × List ContentLockState))
    (fs : List (String × Nat)) (extraBytes : Nat) : CleanResult :=
  match maxSizeMB with
  | none => ⟨channels, fs, [], sumSizes fs + (extraBytes : Int)⟩
  | some m =>
    if m = 0 then ⟨channels, fs, [], sumSizes fs + (extraBytes : Int)⟩
    else
      let maxBytes : Int := (m : Int) * 1024 * 1024
      let currentSize : Int := sumSizes fs + (extraBytes : Int)
      if currentSize ≤ maxBytes then ⟨channels, fs, [], currentSize⟩
      else
        let candidates := sortCandidates dateMs (allCandidates mapping fs channels)
        let r := cleanLoop maxBytes currentSize candidates fs
        ⟨r.2.2.foldl (fun chs d => removeFromMetadata chs d.1.channelId d.1.id) channels,
         r.2.1, r.2.2, r.1⟩

/-- Every deletion happened while the running total still exceeded the
budget (the loop "stops as soon as" the total is within budget). -/
def overBudgetEachStep (maxBytes : Int) : Int → List (Candidate × Nat) → Prop
  | _, [] => True
  | total, d :: rest => total > maxBytes ∧ overBudgetEachStep maxBytes (total - (d.2 : Int)) rest

theorem cleanLoop_deleted_sublist (maxBytes : Int) :
    ∀ (cands : List Candidate) (total : Int) (fs : List (String × Nat)),
      ((cleanLoop maxBytes total cands fs).2.2.map Prod.fst).Sublist cands := by
  intro cands
  induction cands with
  | nil => intro total fs; simp [cleanLoop]
  | cons cand rest ih =>
    intro total fs
    rw [cleanLoop]
    by_cases h : total ≤ maxBytes
    · rw [if_pos h]; simp
    · rw [if_neg h]
      cases hl : lookupKV fs cand.filePath with
      | none => exact (ih total fs).cons _
      | some sz =>
        simp only [List.map]
        exact (ih _ _).cons₂ _

theorem cleanLoop_overBudget (maxBytes : Int) :
    ∀ (cands : List Candidate) (total : Int) (fs : List (String × Nat)),
      overBudgetEachStep maxBytes total (cleanLoop maxBytes total cands fs).2.2 := by
  intro cands
  induction cands with
  | nil => intro total fs; simp [cleanLoop, overBudgetEachStep]
  | cons cand rest ih =>
    intro total fs
    rw [cleanLoop]
    by_cases h : total ≤ maxBytes
    · rw [if_pos h]; simp [overBudgetEachStep]
    · rw [if_neg h]
      cases hl : lookupKV fs cand.filePath with
      | none => exact ih total fs
      | some sz => exact ⟨by omega, ih _ _⟩

theorem lookupKV_eq_none_iff {α : Type} (m : List (String × α)) (k : String) :
    lookupKV m k = none ↔ ∀ e ∈ m, e.1 ≠ k := by
  unfold lookupKV
  rw [Option.map_eq_none', List.find?_eq_none]
  simp

theorem lookupKV_delKV_none {α : Type} (m : List (String × α)) (q p : String)
    (h : lookupKV m p = none) : lookupKV (delKV m q) p = none := by
  rw [lookupKV_eq_none_iff] at h ⊢
  intro e he
  exact h e (List.mem_of_mem_filter he)

theorem lookupKV_delKV_self {α : Type} (m : List (String × α)) (q : String) :
    lookupKV (delKV m q) q = none := by
  rw [lookupKV_eq_none_iff]
  intro e he
  have := List.of_mem_filter he
  simpa using this

theorem cleanLoop_fs_none (maxBytes : Int) :
    ∀ (cands : List Candidate) (total : Int) (fs : List (String × Nat)) (p : String),
      lookupKV fs p = none →
      lookupKV (cleanLoop maxBytes total cands fs).2.1 p = none := by
  intro cands
  induction cands with
  | nil => intro total fs p h; simpa [cleanLoop] using h
  | cons cand rest ih =>
    intro total fs p h
    rw [cleanLoop]
    by_cases hb : total ≤ maxBytes
    · rw [if_pos hb]; exact h
    · rw [if_neg hb]
      cases hl : lookupKV fs cand.filePath with
      | none => exact ih total fs p h
      | some sz => exact ih _ _ p (lookupKV_delKV_none fs cand.filePath p h)

theorem cleanLoop_exhausts (maxBytes : Int) :
    ∀ (cands : List Candidate) (total : Int) (fs : List (String × Nat)),
      (cleanLoop maxBytes total cands fs).1 > maxBytes →
      ∀ cand ∈ cands,
        lookupKV (cleanLoop maxBytes total cands fs).2.1 cand.filePath = none := by
  intro cands
  induction cands with
  | nil => intro total fs _ cand hc; cases hc
  | cons cand0 rest ih =>
    intro total fs hgt cand hc
    rw [cleanLoop] at hgt ⊢
    by_cases hb : total ≤ maxBytes
    · rw [if_pos hb] at hgt
      omega
    · rw [if_neg hb] at hgt ⊢
      cases hl : lookupKV fs cand0.filePath with
      | none =>
        rw [hl] at hgt
        rcases List.mem_cons.mp hc with rfl | hr
        · exact cleanLoop_fs_none maxBytes rest total fs cand.filePath hl
        · exact ih total fs hgt cand hr
      | some sz =>
        rw [hl] at hgt
        rcases List.mem_cons.mp hc with rfl | hr
        · exact cleanLoop_fs_none maxBytes rest _ _ cand.filePath
            (lookupKV_delKV_self fs cand.filePath)
        · exact ih _ _ hgt cand hr

theorem sortCandidates_pairwise (dateMs : String → Int) (cands : List Candidate) :
    (sortCandidates dateMs cands).Pairwise
      (fun a b => dateMs a.fetchedAt ≤ dateMs b.fetchedAt) := by
  have h := @List.sorted_mergeSort Candidate
    (fun a b : Candidate => decide (dateMs a.fetchedAt ≤ dateMs b.fetchedAt))
    ?_ ?_ cands
  · simpa [sortCandidates] using h
  · intro a b c
    simp only [decide_eq_true_eq]
    omega
  · intro a b
    simp only [Bool.or_eq_true, decide_eq_true_eq]
    omega

theorem mem_sortCandidates (dateMs : String → Int) (cands : List Candidate)
    (c : Candidate) : c ∈ sortCandidates dateMs cands ↔ c ∈ cands :=
  (List.mergeSort_perm cands _).mem_iff

theorem allCandidates_spec (mapping : List (String × String)) (fs : List (String × Nat))
    (channels : List (String × List ContentLockState)) :
    ∀ cand ∈ allCandidates mapping fs channels,
      cand.locks = [] ∧
      ∃ chan ∈ channels, chan.1 = cand.channelId ∧
        ∃ item ∈ chan.2, item.id = cand.id ∧ item.locks = [] ∧
          item.fetchedAt = cand.fetchedAt := by
  intro cand hmem
  unfold allCandidates at hmem
  rw [List.mem_flatMap] at hmem
  obtain ⟨chan, hchan, hc⟩ := hmem
  unfold channelCandidates at hc
  rw [List.mem_filterMap] at hc
  obtain ⟨item, hitem, hres⟩ := hc
  cases hl : lookupKV (parsedById mapping fs chan.2) item.id with
  | none => rw [hl] at hres; cases hres
  | some p =>
    rw [hl] at hres
    have hres' : (if item.locks = [] then
        some { id := item.id, channelId := chan.1, fetchedAt := item.fetchedAt,
               locks := item.locks, filePath := p }
      else (none : Option Candidate)) = some cand := hres
    by_cases hlock : item.locks = []
    · rw [if_pos hlock] at hres'
      cases hres'
      exact ⟨hlock, chan, hchan, rfl, item, hitem, rfl, hlock, rfl⟩
    · rw [if_neg hlock] at hres'
      cases hres'

/-- The over-budget branch of `clean`, written out. -/
def cleanMainResult (m : Nat) (dateMs : String → Int)
    (mapping : List (String × String))
    (channels : List (String × List ContentLockState))
    (fs : List (String × Nat)) (extraBytes : Nat) : CleanResult :=
  let maxBytes : Int := (m : Int) * 1024 * 1024
  let currentSize : Int := sumSizes fs + (extraBytes : Int)
  let candidates := sortCandidates dateMs (allCandidates mapping fs channels)
  let r := cleanLoop maxBytes currentSize candidates fs
  ⟨r.2.2.foldl (fun chs d => removeFromMetadata chs d.1.channelId d.1.id) channels,
   r.2.1, r.2.2, r.1⟩

theorem clean_eq_of_over (m : Nat) (dateMs : String → Int)
    (mapping : List (String × String))
    (channels : List (String × List ContentLockState))
    (fs : List (String × Nat)) (extraBytes : Nat) (hm : ¬ m = 0)
    (hover : ¬ (sumSizes fs + (extraBytes : Int) ≤ (m : Int) * 1024 * 1024)) :
    clean (some m) dateMs mapping channels fs extraBytes
      = cleanMainResult m dateMs mapping channels fs extraBytes := by
  simp only [clean, cleanMainResult]
  rw [if_neg hm, if_neg hover]

theorem clean_cases (maxSizeMB : Option Nat) (dateMs : String → Int)
    (mapping : List (String × String))
    (channels : List (String × List ContentLockState))
    (fs : List (String × Nat)) (extraBytes : Nat) :
    (clean maxSizeMB dateMs mapping channels fs extraBytes).deleted = [] ∨
    (∃ m, maxSizeMB = some m ∧ ¬ m = 0 ∧
      ¬ (sumSizes fs + (extraBytes : Int) ≤ (m : Int) * 1024 * 1024) ∧
      clean maxSizeMB dateMs mapping channels fs extraBytes
        = cleanMainResult m dateMs mapping channels fs extraBytes) := by
  rcases maxSizeMB with _ | m
  · left; rfl
  · by_cases hm : m = 0
    · left
      subst hm
      simp [clean]
    · by_cases hover : sumSizes fs + (extraBytes : Int) ≤ (m : Int) * 1024 * 1024
      · left
        simp only [clean]
        rw [if_neg hm, if_pos hover]
      · right
        exact ⟨m, rfl, hm, hover,
          clean_eq_of_over m dateMs mapping channels fs extraBytes hm hover⟩

end EvictionController

/-- C1: after `EvictionController.clean`: no document with a non-empty lock
set is deleted (every deletion corresponds to a metadata item with an empty
lock set); deletions happen in ascending fetch-timestamp order; with no
configured budget (absent or 0), or when the current size is already within
budget, nothing is deleted and nothing changes; every single deletion
happened while the running total still exceeded the budget (deletion stops
as soon as the total falls within it); and if the run ends still over budget
then no unlocked candidate file remains on disk. -/
theorem C1_eviction_safety (maxSizeMB : Option Nat) (dateMs : String → Int)
    (mapping : List (String × String))
    (channels : List (String × List ContentLockState))
    (fs : List (String × Nat)) (extraBytes : Nat) :
    (∀ d ∈ (EvictionController.clean maxSizeMB dateMs mapping channels fs extraBytes).deleted,
      d.1.locks = [] ∧ ∃ chan ∈ channels, chan.1 = d.1.channelId ∧
        ∃ item ∈ chan.2, item.id = d.1.id ∧ item.locks = []) ∧
    List.Pairwise (fun d1 d2 => dateMs d1.1.fetchedAt ≤ dateMs d2.1.fetchedAt)
      (EvictionController.clean maxSizeMB dateMs mapping channels fs extraBytes).deleted ∧
    (maxSizeMB = none →
      EvictionController.clean maxSizeMB dateMs mapping channels fs extraBytes
        = ⟨channels, fs, [], EvictionController.sumSizes fs + (extraBytes : Int)⟩) ∧
    (maxSizeMB = some 0 →
      EvictionController.clean maxSizeMB dateMs mapping channels fs extraBytes
        = ⟨channels, fs, [], EvictionController.sumSizes fs + (extraBytes : Int)⟩) ∧
    (∀ m, maxSizeMB = some m →
      EvictionController.sumSizes fs + (extraBytes : Int) ≤ (m : Int) * 1024 * 1024 →
      EvictionController.clean maxSizeMB dateMs mapping channels fs extraBytes
        = ⟨channels, fs, [], EvictionController.sumSizes fs + (extraBytes : Int)⟩) ∧
    (∀ m, maxSizeMB = some m →
      EvictionController.overBudgetEachStep ((m : Int) * 1024 * 1024)
        (EvictionController.sumSizes fs + (extraBytes : Int))
        (EvictionController.clean maxSizeMB dateMs mapping channels fs extraBytes).deleted) ∧
    (∀ m, maxSizeMB = some m → ¬ m = 0 →
      (EvictionController.clean maxSizeMB dateMs mapping channels fs extraBytes).finalTotal
        > (m : Int) * 1024 * 1024 →
      ∀ cand ∈ EvictionController.allCandidates mapping fs channels,
        lookupKV (EvictionController.clean maxSizeMB dateMs mapping channels fs
          extraBytes).fs cand.filePath = none) := by
  refine ⟨?_, ?_, ?_, ?_, ?_, ?_, ?_⟩
  · intro d hd
    rcases EvictionController.clean_cases maxSizeMB dateMs mapping channels fs extraBytes
      with hnil | ⟨m, hcfg, hm, hover, heq⟩
    · rw [hnil] at hd
      cases hd
    · rw [heq] at hd
      simp only [EvictionController.cleanMainResult] at hd
      have hfst : d.1 ∈ ((EvictionController.cleanLoop ((m : Int) * 1024 * 1024)
          (EvictionController.sumSizes fs + (extraBytes : Int))
          (EvictionController.sortCandidates dateMs
            (EvictionController.allCandidates mapping fs channels)) fs).2.2.map Prod.fst) :=
        List.mem_map_of_mem Prod.fst hd
      have hsorted := (EvictionController.cleanLoop_deleted_sublist _ _ _ _).mem hfst
      have hall := (EvictionController.mem_sortCandidates dateMs _ _).mp hsorted
      obtain ⟨hlocks, chan, hchan, hcid, item, hitem, hid, hilocks, _⟩ :=
        EvictionController.allCandidates_spec mapping fs channels d.1 hall
      exact ⟨hlocks, chan, hchan, hcid, item, hitem, hid, hilocks⟩
  · rcases EvictionController.clean_cases maxSizeMB dateMs mapping channels fs extraBytes
      with hnil | ⟨m, hcfg, hm, hover, heq⟩
    · rw [hnil]
      exact List.Pairwise.nil
    · rw [heq]
      simp only [EvictionController.cleanMainResult]
      exact (List.pairwise_map
          (f := (Prod.fst : EvictionController.Candidate × Nat → EvictionController.Candidate))).mp
        ((EvictionController.sortCandidates_pairwise dateMs _).sublist
          (EvictionController.cleanLoop_deleted_sublist _ _ _ _))
  · intro h
    subst h
    rfl
  · intro h
    subst h
    simp [EvictionController.clean]
  · intro m hcfg hle
    subst hcfg
    by_cases hm : m = 0
    · subst hm
      simp [EvictionController.clean]
    · simp only [EvictionController.clean]
      rw [if_neg hm, if_pos hle]
  · intro m hcfg
    subst hcfg
    by_cases hm : m = 0
    · subst hm
      simp [EvictionController.clean, EvictionController.overBudgetEachStep]
    · by_cases hover : EvictionController.sumSizes fs + (extraBytes : Int)
          ≤ (m : Int) * 1024 * 1024
      · simp only [EvictionController.clean]
        rw [if_neg hm, if_pos hover]
        simp [EvictionController.overBudgetEachStep]
      · rw [EvictionController.clean_eq_of_over m dateMs mapping channels fs extraBytes
          hm hover]
        exact EvictionController.cleanLoop_overBudget _ _ _ _
  · intro m hcfg hm hgt cand hc
    subst hcfg
    by_cases hover : EvictionController.sumSizes fs + (extraBytes : Int)
        ≤ (m : Int) * 1024 * 1024
    · exfalso
      have : (EvictionController.clean (some m) dateMs mapping channels fs
          extraBytes).finalTotal = EvictionController.sumSizes fs + (extraBytes : Int) := by
        simp only [EvictionController.clean]
        rw [if_neg hm, if_pos hover]
      rw [this] at hgt
      omega
    · rw [EvictionController.clean_eq_of_over m dateMs mapping channels fs extraBytes
        hm hover] at hgt ⊢
      simp only [EvictionController.cleanMainResult] at hgt ⊢
      exact EvictionController.cleanLoop_exhausts _ _ _ _ hgt cand
        ((EvictionController.mem_sortCandidates dateMs _ _).mpr hc)

theorem C1_eviction_safety_witness :
    EvictionController.clean (some 5) (fun _ => 0) []
        [("ch1", [⟨"1", ["pin"], "t", some "p.md"⟩])] [("p.md", 100)] 0
      = ⟨[("ch1", [⟨"1", ["pin"], "t", some "p.md"⟩])], [("p.md", 100)], [],
         EvictionController.sumSizes [("p.md", 100)] + ((0 : Nat) : Int)⟩ := by
  have h := C1_eviction_safety (some 5) (fun _ => 0) []
    [("ch1", [⟨"1", ["pin"], "t", some "p.md"⟩])] [("p.md", 100)] 0
  exact h.2.2.2.2.1 5 rfl (by decide)

/- ── relative-path-helper.ts / filesystem-synchronizer.ts ─────────────── -/

/-- `RelativePathHelper.normalizeRelativePath`: backslashes to slashes. -/
def rpNormalize (p : String) : String :=
  String.mk (p.toList.map (fun c => if c = '\\' then '/' else c))

theorem rpNormalize_idem (p : String) : rpNormalize (rpNormalize p) = rpNormalize p := by
  unfold rpNormalize
  rw [show (String.mk (p.toList.map (fun c => if c = '\\' then '/' else c))).toList
      = p.toList.map (fun c => if c = '\\' then '/' else c) from rfl]
  rw [List.map_map]
  congr 1
  apply List.map_congr_left
  intro c _
  by_cases h : c = '\\'
  · simp [h, Function.comp]
  · simp [h, Function.comp]

theorem rpNormalize_eq_empty_iff (p : String) : rpNormalize p = "" ↔ p = "" := by
  constructor
  · intro h
    have h0 : p.toList.map (fun c => if c = '\\' then '/' else c) = [] := by
      have := congrArg String.toList h
      simpa [rpNormalize] using this
    have h1 : p.toList = [] := by
      cases hp : p.toList with
      | nil => rfl
      | cons c t => rw [hp] at h0; cases h0
    cases p with
    | mk data =>
      have h2 : data = [] := by simpa using h1
      rw [h2]
  · intro h
    subst h
    rfl

theorem lookupKV_isSome_mem {α : Type} (m : List (String × α)) (k : String) (v : α)
    (h : lookupKV m k = some v) : (k, v) ∈ m := by
  unfold lookupKV at h
  cases hf : m.find? (fun e => decide (e.1 = k)) with
  | none => rw [hf] at h; cases h
  | some e =>
    rw [hf] at h
    have he2 : e.2 = v := by simpa using h
    have hmem := List.mem_of_find?_eq_some hf
    have hp := List.find?_some hf
    have he1 : e.1 = k := by simpa using hp
    have hev : e = (k, v) := by
      obtain ⟨e1, e2⟩ := e
      simp_all
    rw [← hev]
    exact hmem

namespace FilesystemSynchronizer

/-- The sync filesystem: normalized relative path ↦ file mtime (ISO string).
Presence in the list is `fs.existsSync`. -/
abbrev SyncFs := List (String × String)

/-- Step 1: drop ledger entries whose bound location no longer exists
(`staleIds` + `removeMappingById`). -/
def removeStale (mapping : List (String × String)) (fs : SyncFs) :
    List (String × String) :=
  mapping.filter (fun e => (lookupKV fs e.2).isSome)

/-- `mappedRelativePath ?? item.filePath` of the first per-channel filter. -/
def candidatePathA (mapping : List (String × String)) (item : ContentLockState) :
    Option String :=
  match lookupKV mapping item.id with
  | some p => some p
  | none => item.filePath

/-- First per-channel pass: drop records with no (truthy) candidate path or a
vanished file; the boolean is the accumulated `metadataChanged` from it. -/
def phaseA (mapping : List (String × String)) (fs : SyncFs) :
    List ContentLockState → List ContentLockState × Bool
  | [] => ([], false)
  | item :: rest =>
    let r := phaseA mapping fs rest
    let keep : Bool :=
      match candidatePathA mapping item with
      | none => false
      | some p => if p = "" then false else (lookupKV fs (rpNormalize p)).isSome
    if keep then (item :: r.1, r.2) else (r.1, true)

/-- Second per-channel pass, one record: repair `filePath` drift and blank
`fetchedAt`; returns (record, seen, changed). -/
def repairItem (mapping : List (String × String)) (fs : SyncFs)
    (item : ContentLockState) : ContentLockState × Bool × Bool :=
  let relativePath := rpNormalize
    (match lookupKV mapping item.id with
      | some p => p
      | none => match item.filePath with | some fp => fp | none => "")
  if relativePath = "" then (item, false, false)
  else
    match lookupKV fs relativePath with
    | none => (item, false, false)
    | some mtime =>
      let c1 : Bool := item.filePath ≠ some relativePath
      let c2 : Bool := item.fetchedAt = "" || jsTrim item.fetchedAt = ""
      ({ item with
          filePath := if c1 then some relativePath else item.filePath,
          fetchedAt := if c2 then mtime else item.fetchedAt },
        true, c1 || c2)

/-- Second per-channel pass over the records: (records, seen ids, changed). -/
def phaseB (mapping : List (String × String)) (fs : SyncFs) :
    List ContentLockState → List ContentLockState × List String × Bool
  | [] => ([], [], false)
  | item :: rest =>
    let r1 := repairItem mapping fs item
    let r2 := phaseB mapping fs rest
    (r1.1 :: r2.1,
     (if r1.2.1 then [item.id] else []) ++ r2.2.1,
     r1.2.2 || r2.2.2)

/-- Final filter on `seenIds`. -/
def phaseC (seen : List String) (items : List ContentLockState) :
    List ContentLockState :=
  items.filter (fun item => seen.contains item.id)

/-- One channel's sync pass; the boolean is `metadataChanged` (the channel's
metadata file is written iff it is true). -/
def syncChannel (mapping : List (String × String)) (fs : SyncFs)
    (items : List ContentLockState) : List ContentLockState × Bool :=
  let a := phaseA mapping fs items
  let b := phaseB mapping fs a.1
  let c := phaseC b.2.1 b.1
  (c, a.2 || b.2.2 || decide (c.length ≠ b.1.length))

/-- Result of one `syncContentTracking()` pass: the surviving ledger map, the
new per-channel metadata, and the ids of the channels whose metadata file was
written. -/
structure SyncResult where
  mapping : List (String × String)
  channels : List (String × List ContentLockState)
  writes : List String
deriving DecidableEq, Repr

/-- `FilesystemSynchronizer.syncContentTracking` (current version): remove
stale ledger entries, then per channel drop orphaned records and repair
`filePath`/`fetchedAt`, writing each channel's metadata at most once and only
when something changed. It discovers no untracked files. -/
def syncContentTracking (mapping : List (String × String))
    (channels : List (String × List ContentLockState)) (fs : SyncFs) : SyncResult :=
  let mapping' := removeStale mapping fs
  let results := channels.map (fun c => (c.1, syncChannel mapping' fs c.2))
  ⟨mapping',
   results.map (fun r => (r.1, r.2.1)),
   (results.filter (fun r => r.2.2)).map (fun r => r.1)⟩

/-- Well-formed filesystem: every recorded mtime is a non-blank string (ISO
timestamps from `toISOString` always are). -/
def WfFs (fs : SyncFs) : Prop :=
  ∀ e ∈ fs, jsTrim e.2 ≠ ""

/-- A record the reconciler has nothing left to do on: its resolved relative
path is non-blank, exists on disk, is already stored in `filePath`, and its
fetch timestamp is non-blank. -/
def Settled (mapping : List (String × String)) (fs : SyncFs)
    (item : ContentLockState) : Prop :=
  ∃ rp : String, rp ≠ "" ∧
    rpNormalize (match lookupKV mapping item.id with
      | some p => p
      | none => match item.filePath with | some fp => fp | none => "") = rp ∧
    (lookupKV fs rp).isSome = true ∧ item.filePath = some rp ∧
    jsTrim item.fetchedAt ≠ ""

/-- The keep-condition facts available for every record `phaseA` retains. -/
theorem phaseA_sound (mapping : List (String × String)) (fs : SyncFs) :
    ∀ items : List ContentLockState, ∀ item ∈ (phaseA mapping fs items).1,
      item ∈ items ∧ ∃ p, candidatePathA mapping item = some p ∧ p ≠ "" ∧
        (lookupKV fs (rpNormalize p)).isSome = true := by
  intro items
  induction items with
  | nil => intro item h; simp [phaseA] at h
  | cons it rest ih =>
    intro item h
    rw [phaseA] at h
    by_cases hk : (match candidatePathA mapping it with
      | none => false
      | some p => if p = "" then false else (lookupKV fs (rpNormalize p)).isSome) = true
    · rw [if_pos hk] at h
      rcases List.mem_cons.mp h with rfl | hr
      · refine ⟨List.mem_cons_self _ _, ?_⟩
        cases hc : candidatePathA mapping item with
        | none => rw [hc] at hk; cases hk
        | some p =>
          rw [hc] at hk
          have hk' : (if p = "" then false
              else (lookupKV fs (rpNormalize p)).isSome) = true := hk
          by_cases hp : p = ""
          · rw [if_pos hp] at hk'; cases hk'
          · rw [if_neg hp] at hk'
            exact ⟨p, rfl, hp, hk'⟩
      · have := ih item hr
        exact ⟨List.mem_cons_of_mem _ this.1, this.2⟩
    · rw [if_neg hk] at h
      have := ih item h
      exact ⟨List.mem_cons_of_mem _ this.1, this.2⟩

/-- `phaseA` keeps every settled record and reports no change. -/
theorem phaseA_settled (mapping : List (String × String)) (fs : SyncFs) :
    ∀ items : List ContentLockState, (∀ item ∈ items, Settled mapping fs item) →
      phaseA mapping fs items = (items, false) := by
  intro items
  induction items with
  | nil => intro _; rfl
  | cons it rest ih =>
    intro hall
    obtain ⟨rp, hrp, hres, hex, hfp, _⟩ := hall it (List.mem_cons_self _ _)
    have hkeep : (match candidatePathA mapping it with
        | none => false
        | some p => if p = "" then false
            else (lookupKV fs (rpNormalize p)).isSome) = true := by
      cases hm : lookupKV mapping it.id with
      | some p =>
        rw [hm] at hres
        have hres' : rpNormalize p = rp := hres
        have hcand : candidatePathA mapping it = some p := by
          unfold candidatePathA
          rw [hm]
        rw [hcand]
        show (if p = "" then false else (lookupKV fs (rpNormalize p)).isSome) = true
        have hp : p ≠ "" := by
          intro h0
          rw [h0] at hres'
          exact hrp (by rw [← hres']; rfl)
        rw [if_neg hp, hres']
        exact hex
      | none =>
        rw [hm, hfp] at hres
        have hres' : rpNormalize rp = rp := hres
        have hcand : candidatePathA mapping it = some rp := by
          unfold candidatePathA
          rw [hm, hfp]
        rw [hcand]
        show (if rp = "" then false else (lookupKV fs (rpNormalize rp)).isSome) = true
        rw [if_neg hrp, hres']
        exact hex
    rw [phaseA, ih (fun x hx => hall x (List.mem_cons_of_mem _ hx)), if_pos hkeep]

/-- `repairItem` leaves a settled record untouched, seen, unchanged. -/
theorem repairItem_settled (mapping : List (String × String)) (fs : SyncFs)
    (item : ContentLockState) (h : Settled mapping fs item) :
    repairItem mapping fs item = (item, true, false) := by
  obtain ⟨rp, hrp, hres, hex, hfp, hta⟩ := h
  unfold repairItem
  rw [hres, if_neg hrp]
  cases hl : lookupKV fs rp with
  | none => rw [hl] at hex; cases hex
  | some mtime =>
    have hc1 : (decide (item.filePath ≠ some rp)) = false := by
      simp [hfp]
    have hta' : item.fetchedAt ≠ "" := by
      intro h0
      rw [h0] at hta
      exact hta rfl
    have hc2 : ((item.fetchedAt = "" : Bool) || (jsTrim item.fetchedAt = "" : Bool))
        = false := by
      simp [hta, hta']
    simp only [hc1, hc2, Bool.false_eq_true, if_false, Bool.or_self]

/-- `phaseB` maps `repairItem` over the records. -/
theorem phaseB_items (mapping : List (String × String)) (fs : SyncFs) :
    ∀ items : List ContentLockState,
      (phaseB mapping fs items).1
        = items.map (fun i => (repairItem mapping fs i).1) := by
  intro items
  induction items with
  | nil => rfl
  | cons it rest ih => simp only [phaseB, List.map, ih]

/-- When every record is seen, `phaseB`'s seen list is the id list. -/
theorem phaseB_seen (mapping : List (String × String)) (fs : SyncFs) :
    ∀ items : List ContentLockState,
      (∀ item ∈ items, (repairItem mapping fs item).2.1 = true) →
      (phaseB mapping fs items).2.1 = items.map (fun i => i.id) := by
  intro items
  induction items with
  | nil => intro _; rfl
  | cons it rest ih =>
    intro hall
    simp only [phaseB, hall it (List.mem_cons_self _ _), if_true, List.map]
    rw [ih (fun x hx => hall x (List.mem_cons_of_mem _ hx))]
    rfl

/-- When nothing changes, `phaseB` reports no change. -/
theorem phaseB_settled (mapping : List (String × String)) (fs : SyncFs) :
    ∀ items : List ContentLockState, (∀ item ∈ items, Settled mapping fs item) →
      phaseB mapping fs items = (items, items.map (fun i => i.id), false) := by
  intro items
  induction items with
  | nil => intro _; rfl
  | cons it rest ih =>
    intro hall
    have h1 := repairItem_settled mapping fs it (hall it (List.mem_cons_self _ _))
    simp only [phaseB, h1, ih (fun x hx => hall x (List.mem_cons_of_mem _ hx)),
      if_true, List.map]
    rfl

/-- `phaseC` keeps everything whose id is in the seen list. -/
theorem phaseC_full (seen : List String) (items : List ContentLockState)
    (h : ∀ item ∈ items, seen.contains item.id = true) :
    phaseC seen items = items := by
  unfold phaseC
  exact List.filter_eq_self.mpr h

/-- A settled channel syncs to itself with no metadata write. -/
theorem syncChannel_settled (mapping : List (String × String)) (fs : SyncFs)
    (items : List ContentLockState) (hall : ∀ item ∈ items, Settled mapping fs item) :
    syncChannel mapping fs items = (items, false) := by
  unfold syncChannel
  rw [phaseA_settled mapping fs items hall]
  simp only
  rw [phaseB_settled mapping fs items hall]
  simp only
  rw [phaseC_full _ _ (fun item hi => by
    simp only [List.contains_iff_exists_mem_beq]
    exact ⟨item.id, List.mem_map_of_mem _ hi, by simp⟩)]
  simp

/-- Every record `phaseA` keeps is seen by `repairItem`, and its repaired
form is settled. -/
theorem repairItem_of_kept (mapping : List (String × String)) (fs : SyncFs)
    (hwf : WfFs fs) (item : ContentLockState) (p : String)
    (hc : candidatePathA mapping item = some p) (hp : p ≠ "")
    (hex : (lookupKV fs (rpNormalize p)).isSome = true) :
    (repairItem mapping fs item).2.1 = true ∧
    Settled mapping fs (repairItem mapping fs item).1 := by
  have hinner : (match lookupKV mapping item.id with
      | some p0 => p0
      | none => match item.filePath with | some fp => fp | none => "") = p := by
    unfold candidatePathA at hc
    cases hm : lookupKV mapping item.id with
    | some pm =>
      rw [hm] at hc
      have hc' : some pm = some p := hc
      cases hc'
      rfl
    | none =>
      rw [hm] at hc
      have hc' : item.filePath = some p := hc
      show (match item.filePath with | some fp => fp | none => "") = p
      rw [hc']
  have hrpne : rpNormalize p ≠ "" := by
    intro h0
    exact hp ((rpNormalize_eq_empty_iff p).mp h0)
  unfold repairItem
  rw [hinner, if_neg hrpne]
  cases hl : lookupKV fs (rpNormalize p) with
  | none => rw [hl] at hex; cases hex
  | some mtime =>
    refine ⟨rfl, ?_⟩
    have hmem : (rpNormalize p, mtime) ∈ fs := lookupKV_isSome_mem fs _ _ hl
    have hmt : jsTrim mtime ≠ "" := hwf (rpNormalize p, mtime) hmem
    refine ⟨rpNormalize p, hrpne, ?_, ?_, ?_, ?_⟩
    · show rpNormalize (match lookupKV mapping item.id with
        | some p0 => p0
        | none => match (if (item.filePath ≠ some (rpNormalize p) : Bool)
              then some (rpNormalize p) else item.filePath) with
            | some fp => fp
            | none => "") = rpNormalize p
      cases hm : lookupKV mapping item.id with
      | some pm =>
        unfold candidatePathA at hc
        rw [hm] at hc
        cases hc
        rfl
      | none =>
        by_cases hne : item.filePath ≠ some (rpNormalize p)
        · rw [if_pos (by simpa using hne)]
          rw [rpNormalize_idem]
        · rw [if_neg (by simpa using hne)]
          push_neg at hne
          rw [hne]
          rw [rpNormalize_idem]
    · rw [hl]
      rfl
    · show (if (item.filePath ≠ some (rpNormalize p) : Bool)
          then some (rpNormalize p) else item.filePath) = some (rpNormalize p)
      by_cases hne : item.filePath ≠ some (rpNormalize p)
      · rw [if_pos (by simpa using hne)]
      · rw [if_neg (by simpa using hne)]
        push_neg at hne
        exact hne
    · show jsTrim (if ((item.fetchedAt = "" : Bool) || (jsTrim item.fetchedAt = "" : Bool))
          then mtime else item.fetchedAt) ≠ ""
      by_cases hc2 : ((item.fetchedAt = "" : Bool) || (jsTrim item.fetchedAt = "" : Bool)) = true
      · rw [if_pos hc2]
        exact hmt
      · rw [if_neg hc2]
        simp only [Bool.or_eq_true, decide_eq_true_eq, not_or] at hc2
        exact hc2.2

/-- Every record surviving a channel pass is settled. -/
theorem syncChannel_out_settled (mapping : List (String × String)) (fs : SyncFs)
    (hwf : WfFs fs) (items : List ContentLockState) :
    ∀ item' ∈ (syncChannel mapping fs items).1, Settled mapping fs item' := by
  intro item' h
  unfold syncChannel phaseC at h
  have h1 : item' ∈ (phaseB mapping fs (phaseA mapping fs items).1).1 :=
    List.mem_of_mem_filter h
  rw [phaseB_items] at h1
  obtain ⟨item, hitem, rfl⟩ := List.mem_map.mp h1
  obtain ⟨_, p, hc, hp, hex⟩ := phaseA_sound mapping fs items item hitem
  exact (repairItem_of_kept mapping fs hwf item p hc hp hex).2

theorem removeStale_idem (mapping : List (String × String)) (fs : SyncFs) :
    removeStale (removeStale mapping fs) fs = removeStale mapping fs := by
  unfold removeStale
  rw [List.filter_eq_self]
  intro e he
  exact (List.mem_filter.mp he).2

end FilesystemSynchronizer

/-- C6: `syncContentTracking` is idempotent with respect to metadata writes:
a second pass over the unchanged filesystem performs no metadata write and
changes neither the ledger map nor any channel's metadata; and a single pass
performs at most one metadata write per channel (the write list is a sublist
of the channel list, without duplicates when channel ids are unique). -/
theorem C6_sync_metadata_write_idempotent (mapping : List (String × String))
    (channels : List (String × List ContentLockState))
    (fs : FilesystemSynchronizer.SyncFs) (hwf : FilesystemSynchronizer.WfFs fs) :
    (FilesystemSynchronizer.syncContentTracking
      (FilesystemSynchronizer.syncContentTracking mapping channels fs).mapping
      (FilesystemSynchronizer.syncContentTracking mapping channels fs).channels
      fs).writes = [] ∧
    (FilesystemSynchronizer.syncContentTracking
      (FilesystemSynchronizer.syncContentTracking mapping channels fs).mapping
      (FilesystemSynchronizer.syncContentTracking mapping channels fs).channels
      fs).mapping = (FilesystemSynchronizer.syncContentTracking mapping channels fs).mapping ∧
    (FilesystemSynchronizer.syncContentTracking
      (FilesystemSynchronizer.syncContentTracking mapping channels fs).mapping
      (FilesystemSynchronizer.syncContentTracking mapping channels fs).channels
      fs).channels = (FilesystemSynchronizer.syncContentTracking mapping channels fs).channels ∧
    (FilesystemSynchronizer.syncContentTracking mapping channels fs).writes.Sublist
      (channels.map Prod.fst) ∧
    ((channels.map Prod.fst).Nodup →
      (FilesystemSynchronizer.syncContentTracking mapping channels fs).writes.Nodup) := by
  have hmap1 : (FilesystemSynchronizer.syncContentTracking mapping channels fs).mapping
      = FilesystemSynchronizer.removeStale mapping fs := rfl
  have hsettled : ∀ c ∈ (FilesystemSynchronizer.syncContentTracking mapping channels fs).channels,
      ∀ item ∈ c.2, FilesystemSynchronizer.Settled
        (FilesystemSynchronizer.removeStale mapping fs) fs item := by
    intro c hc item hi
    simp only [FilesystemSynchronizer.syncContentTracking, List.map_map,
      List.mem_map] at hc
    obtain ⟨c0, _, rfl⟩ := hc
    exact FilesystemSynchronizer.syncChannel_out_settled _ fs hwf c0.2 item hi
  have hchan2 : ∀ c ∈ (FilesystemSynchronizer.syncContentTracking mapping channels fs).channels,
      FilesystemSynchronizer.syncChannel (FilesystemSynchronizer.removeStale mapping fs)
        fs c.2 = (c.2, false) :=
    fun c hc => FilesystemSynchronizer.syncChannel_settled _ fs c.2 (hsettled c hc)
  refine ⟨?_, ?_, ?_, ?_, ?_⟩
  · show (((FilesystemSynchronizer.syncContentTracking mapping channels fs).channels.map
      (fun c => (c.1, FilesystemSynchronizer.syncChannel
        (FilesystemSynchronizer.removeStale
          (FilesystemSynchronizer.syncContentTracking mapping channels fs).mapping fs)
        fs c.2))).filter (fun r => r.2.2)).map (fun r => r.1) = []
    rw [hmap1, FilesystemSynchronizer.removeStale_idem]
    have hnil : ((FilesystemSynchronizer.syncContentTracking mapping channels fs).channels.map
        (fun c => (c.1, FilesystemSynchronizer.syncChannel
          (FilesystemSynchronizer.removeStale mapping fs) fs c.2))).filter
        (fun r => r.2.2) = [] := by
      rw [List.filter_eq_nil_iff]
      intro r hr
      obtain ⟨c, hc, rfl⟩ := List.mem_map.mp hr
      rw [hchan2 c hc]
      simp
    rw [hnil]
    rfl
  · show FilesystemSynchronizer.removeStale
      (FilesystemSynchronizer.syncContentTracking mapping channels fs).mapping fs
      = (FilesystemSynchronizer.syncContentTracking mapping channels fs).mapping
    rw [hmap1]
    exact FilesystemSynchronizer.removeStale_idem mapping fs
  · show ((FilesystemSynchronizer.syncContentTracking mapping channels fs).channels.map
      (fun c => (c.1, FilesystemSynchronizer.syncChannel
        (FilesystemSynchronizer.removeStale
          (FilesystemSynchronizer.syncContentTracking mapping channels fs).mapping fs)
        fs c.2))).map (fun r => (r.1, r.2.1))
      = (FilesystemSynchronizer.syncContentTracking mapping channels fs).channels
    rw [hmap1, FilesystemSynchronizer.removeStale_idem, List.map_map]
    rw [List.map_congr_left (fun c hc => ?_), List.map_id]
    rw [Function.comp_apply, hchan2 c hc]
    rfl
  · show ((channels.map (fun c => (c.1, FilesystemSynchronizer.syncChannel
        (FilesystemSynchronizer.removeStale mapping fs) fs c.2))).filter
        (fun r => r.2.2)).map (fun r => r.1) |>.Sublist (channels.map Prod.fst)
    have h1 : ((channels.map (fun c => (c.1, FilesystemSynchronizer.syncChannel
        (FilesystemSynchronizer.removeStale mapping fs) fs c.2))).filter
        (fun r => r.2.2)).map (fun r => r.1) |>.Sublist
        ((channels.map (fun c => (c.1, FilesystemSynchronizer.syncChannel
          (FilesystemSynchronizer.removeStale mapping fs) fs c.2))).map (fun r => r.1)) :=
      List.Sublist.map _ (List.filter_sublist _)
    rw [List.map_map] at h1
    exact h1
  · intro hnodup
    show ((channels.map (fun c => (c.1, FilesystemSynchronizer.syncChannel
        (FilesystemSynchronizer.removeStale mapping fs) fs c.2))).filter
        (fun r => r.2.2)).map (fun r => r.1) |>.Nodup
    have h1 : ((channels.map (fun c => (c.1, FilesystemSynchronizer.syncChannel
        (FilesystemSynchronizer.removeStale mapping fs) fs c.2))).filter
        (fun r => r.2.2)).map (fun r => r.1) |>.Sublist
        ((channels.map (fun c => (c.1, FilesystemSynchronizer.syncChannel
          (FilesystemSynchronizer.removeStale mapping fs) fs c.2))).map (fun r => r.1)) :=
      List.Sublist.map _ (List.filter_sublist _)
    rw [List.map_map] at h1
    exact List.Nodup.sublist h1 hnodup

theorem C6_sync_metadata_write_idempotent_witness :
    FilesystemSynchronizer.WfFs [("a.md", "t")] ∧
    (FilesystemSynchronizer.syncContentTracking
      (FilesystemSynchronizer.syncContentTracking [("1", "a.md")]
        [("ch1", [⟨"1", [], "t", some "a.md"⟩])] [("a.md", "t")]).mapping
      (FilesystemSynchronizer.syncContentTracking [("1", "a.md")]
        [("ch1", [⟨"1", [], "t", some "a.md"⟩])] [("a.md", "t")]).channels
      [("a.md", "t")]).writes = [] :=
  have hwf : FilesystemSynchronizer.WfFs [("a.md", "t")] := by
    intro e he
    rw [List.mem_singleton] at he
    subst he
    decide
  ⟨hwf, (C6_sync_metadata_write_idempotent [("1", "a.md")]
    [("ch1", [⟨"1", [], "t", some "a.md"⟩])] [("a.md", "t")] hwf).1⟩

namespace Reservoir

/-- `ContentIdAllocator.findIdByFile`: normalize the queried path, then return
the first identifier the persisted map binds to it. -/
def findIdByFile (s : AllocState) (relativeFilePath : String) : Option String :=
  findIdByFileInMap (readMapValue s.mapFile) (normalizeRelativePath relativeFilePath)

/-- One entry of `fs.readdirSync(contentDir, { withFileTypes: true })`,
together with the `statSync(filePath).mtime.toISOString()` of the named file. -/
structure DirEntry where
  name : String
  isFile : Bool
  mtime : String
deriving DecidableEq, Repr

/-- `toRelativePath(path.join(contentDir, entry.name))`: the content
directory's root-relative path joined with the entry name, normalized. -/
def toRelativePath (relDir name : String) : String :=
  normalizeRelativePath (relDir ++ "/" ++ name)

/-- `let id = this.idAllocator.findIdByFile(relativePath); if (!id) id = await
this.idAllocator.assignIdToFile(relativePath)`: a truthy previously-bound
identifier is reused without touching the ledger, otherwise `assignIdToFile`
resolves or allocates one. -/
def resolveId (s : AllocState) (relativePath : String) : String × AllocState :=
  match findIdByFile s relativePath with
  | some i => if i ≠ "" then (i, s) else assignIdToFile s relativePath
  | none => assignIdToFile s relativePath

/-- `byId.get(id)` for the JS `Map` built from the item list: for each id the
last item carrying it wins. -/
def byIdGet (items : List ContentLockState) (id : String) :
    Option ContentLockState :=
  items.reverse.find? (fun it => it.id = id)

/-- Rewrite the first item carrying `id`. -/
def updateFirst (id : String) (f : ContentLockState → ContentLockState) :
    List ContentLockState → List ContentLockState
  | [] => []
  | it :: rest => if it.id = id then f it :: rest else it :: updateFirst id f rest

/-- In-place mutation of the object `byId.get(id)` points at: rewrite the last
item carrying `id`. -/
def updateLast (items : List ContentLockState) (id : String)
    (f : ContentLockState → ContentLockState) : List ContentLockState :=
  (updateFirst id f items.reverse).reverse

/-- The two in-place repairs applied to a tracked item: re-point `filePath` at
the discovered location when it drifted, and fill a blank (or empty)
`fetchedAt` from the file's mtime. -/
def repairEntry (relativePath mtime : String) (it : ContentLockState) :
    ContentLockState :=
  let it1 := if it.filePath ≠ some relativePath
    then { it with filePath := some relativePath } else it
  if jsTrim it1.fetchedAt = "" then { it1 with fetchedAt := mtime } else it1

/-- The legacy per-channel loop state: the allocator's files, the metadata
items, the insertion-ordered `seenIds` set and the `metadataChanged` flag. -/
structure LoopState where
  alloc : AllocState
  items : List ContentLockState
  seenIds : List String
  changed : Bool
deriving DecidableEq, Repr

/-- The body of the legacy discovery loop (`Reservoir.syncContentTracking`)
for one directory entry. -/
def discoverStep (relDir : String) (retainedLocks : List String)
    (st : LoopState) (e : DirEntry) : LoopState :=
  if e.isFile && lowerEndsWithMd e.name then
    let relativePath := toRelativePath relDir e.name
    let r := resolveId st.alloc relativePath
    let seen' := if r.1 ∈ st.seenIds then st.seenIds else st.seenIds ++ [r.1]
    match byIdGet st.items r.1 with
    | none =>
      { alloc := r.2,
        items := st.items ++
          [{ id := r.1, locks := retainedLocks, fetchedAt := e.mtime,
             filePath := some relativePath }],
        seenIds := seen', changed := true }
    | some existing =>
      { alloc := r.2,
        items := updateLast st.items r.1 (repairEntry relativePath e.mtime),
        seenIds := seen',
        changed := (st.changed || decide (existing.filePath ≠ some relativePath))
          || decide (jsTrim existing.fetchedAt = "") }
  else st

/-- The whole `for (const entry of fs.readdirSync(contentDir, ...))` loop. -/
def discoverLoop (relDir : String) (retainedLocks : List String)
    (st : LoopState) (entries : List DirEntry) : LoopState :=
  entries.foldl (discoverStep relDir retainedLocks) st

theorem repairEntry_id (relativePath mtime : String) (it : ContentLockState) :
    (repairEntry relativePath mtime it).id = it.id := by
  unfold repairEntry
  dsimp only
  split <;> split <;> rfl

theorem updateFirst_ids (id : String) (f : ContentLockState → ContentLockState)
    (hf : ∀ it, (f it).id = it.id) (items : List ContentLockState) :
    (updateFirst id f items).map ContentLockState.id
      = items.map ContentLockState.id := by
  induction items with
  | nil => rfl
  | cons it rest ih =>
    unfold updateFirst
    by_cases h : it.id = id
    · rw [if_pos h]
      simp [hf]
    · rw [if_neg h]
      simp [ih]

theorem updateLast_ids (items : List ContentLockState) (id : String)
    (f : ContentLockState → ContentLockState) (hf : ∀ it, (f it).id = it.id) :
    (updateLast items id f).map ContentLockState.id
      = items.map ContentLockState.id := by
  unfold updateLast
  rw [List.map_reverse, updateFirst_ids id f hf, ← List.map_reverse,
    List.reverse_reverse]

end Reservoir

/-- C7 counterexample: the shipped `FilesystemSynchronizer.syncContentTracking`
performs no untracked-file discovery. With an empty ledger, one channel with
empty metadata and one on-disk content file, the pass synthesizes no record
and performs no metadata write. -/
theorem C7_untracked_discovery_counterexample :
    (FilesystemSynchronizer.syncContentTracking [] [("ch1", [])]
      [("channels/ch1/content/new.md", "2024-01-01T00:00:00.000Z")]).channels
      = [("ch1", [])] ∧
    (FilesystemSynchronizer.syncContentTracking [] [("ch1", [])]
      [("channels/ch1/content/new.md", "2024-01-01T00:00:00.000Z")]).writes
      = [] :=
  ⟨rfl, rfl⟩

/-- C7 (amended): untracked-file discovery is implemented by the legacy
`Reservoir.syncContentTracking` loop, not the shipped synchronizer. For every
regular `.md` directory entry, the loop body resolves an identifier — the
truthy identifier already bound to the file's relative path, else the
`assignIdToFile` result; when no tracked item carries that identifier it
appends exactly one record holding the identifier, the channel's retained
locks, the file's mtime as fetch time and the file's relative path, and marks
the metadata changed; when a tracked item carries it, the last such item is
repaired in place and nothing is appended; no record's identifier is ever
dropped; and the identifier is recorded as seen. -/
theorem C7_untracked_discovery (relDir : String) (retainedLocks : List String)
    (st : Reservoir.LoopState) (e : Reservoir.DirEntry) (rp : String)
    (r : String × AllocState)
    (hfile : e.isFile = true) (hmd : lowerEndsWithMd e.name = true)
    (hrp : rp = Reservoir.toRelativePath relDir e.name)
    (hr : r = Reservoir.resolveId st.alloc rp) :
    ((Reservoir.findIdByFile st.alloc rp = some r.1 ∧ r.1 ≠ "" ∧ r.2 = st.alloc)
        ∨ r = assignIdToFile st.alloc rp) ∧
    (Reservoir.byIdGet st.items r.1 = none →
      (Reservoir.discoverStep relDir retainedLocks st e).items
          = st.items ++ [{ id := r.1, locks := retainedLocks,
                           fetchedAt := e.mtime, filePath := some rp }] ∧
        (Reservoir.discoverStep relDir retainedLocks st e).changed = true ∧
        (Reservoir.discoverStep relDir retainedLocks st e).alloc = r.2) ∧
    (∀ existing, Reservoir.byIdGet st.items r.1 = some existing →
      (Reservoir.discoverStep relDir retainedLocks st e).items
          = Reservoir.updateLast st.items r.1
              (Reservoir.repairEntry rp e.mtime) ∧
        (Reservoir.discoverStep relDir retainedLocks st e).items.length
          = st.items.length) ∧
    (∀ it ∈ st.items,
      ∃ it' ∈ (Reservoir.discoverStep relDir retainedLocks st e).items,
        it'.id = it.id) ∧
    r.1 ∈ (Reservoir.discoverStep relDir retainedLocks st e).seenIds := by
  subst hrp
  subst hr
  have hcond : (e.isFile && lowerEndsWithMd e.name) = true := by
    rw [hfile, hmd]
    rfl
  have hprov : (Reservoir.findIdByFile st.alloc
        (Reservoir.toRelativePath relDir e.name)
        = some (Reservoir.resolveId st.alloc
            (Reservoir.toRelativePath relDir e.name)).1 ∧
      (Reservoir.resolveId st.alloc (Reservoir.toRelativePath relDir e.name)).1
        ≠ "" ∧
      (Reservoir.resolveId st.alloc (Reservoir.toRelativePath relDir e.name)).2
        = st.alloc)
      ∨ Reservoir.resolveId st.alloc (Reservoir.toRelativePath relDir e.name)
        = assignIdToFile st.alloc (Reservoir.toRelativePath relDir e.name) := by
    cases hf : Reservoir.findIdByFile st.alloc
        (Reservoir.toRelativePath relDir e.name) with
    | none =>
      right
      simp only [Reservoir.resolveId, hf]
    | some i =>
      by_cases hi : i = ""
      · right
        simp only [Reservoir.resolveId, hf]
        rw [if_neg (by simp [hi])]
      · left
        have hres : Reservoir.resolveId st.alloc
            (Reservoir.toRelativePath relDir e.name) = (i, st.alloc) := by
          simp only [Reservoir.resolveId, hf]
          rw [if_pos hi]
        rw [hres]
        exact ⟨rfl, hi, rfl⟩
  have hseen : ∀ (s : List String) (i : String),
      i ∈ (if i ∈ s then s else s ++ [i]) := by
    intro s i
    split
    · assumption
    · exact List.mem_append_right _ (List.mem_singleton_self i)
  cases hby : Reservoir.byIdGet st.items
      (Reservoir.resolveId st.alloc (Reservoir.toRelativePath relDir e.name)).1 with
  | none =>
    have hstep : Reservoir.discoverStep relDir retainedLocks st e =
        { alloc := (Reservoir.resolveId st.alloc
              (Reservoir.toRelativePath relDir e.name)).2,
          items := st.items ++
            [{ id := (Reservoir.resolveId st.alloc
                  (Reservoir.toRelativePath relDir e.name)).1,
               locks := retainedLocks, fetchedAt := e.mtime,
               filePath := some (Reservoir.toRelativePath relDir e.name) }],
          seenIds := if (Reservoir.resolveId st.alloc
                (Reservoir.toRelativePath relDir e.name)).1 ∈ st.seenIds
            then st.seenIds
            else st.seenIds ++ [(Reservoir.resolveId st.alloc
                (Reservoir.toRelativePath relDir e.name)).1],
          changed := true } := by
      simp only [Reservoir.discoverStep, hcond, if_true, hby]
    refine ⟨hprov, ?_, ?_, ?_, ?_⟩
    · intro _
      rw [hstep]
      exact ⟨rfl, rfl, rfl⟩
    · intro existing hsome
      exact Option.noConfusion hsome
    · intro it hit
      exact ⟨it, by rw [hstep]; exact List.mem_append_left _ hit, rfl⟩
    · rw [hstep]
      exact hseen st.seenIds _
  | some existing0 =>
    have hstep : Reservoir.discoverStep relDir retainedLocks st e =
        { alloc := (Reservoir.resolveId st.alloc
              (Reservoir.toRelativePath relDir e.name)).2,
          items := Reservoir.updateLast st.items
            (Reservoir.resolveId st.alloc
              (Reservoir.toRelativePath relDir e.name)).1
            (Reservoir.repairEntry (Reservoir.toRelativePath relDir e.name)
              e.mtime),
          seenIds := if (Reservoir.resolveId st.alloc
                (Reservoir.toRelativePath relDir e.name)).1 ∈ st.seenIds
            then st.seenIds
            else st.seenIds ++ [(Reservoir.resolveId st.alloc
                (Reservoir.toRelativePath relDir e.name)).1],
          changed := (st.changed
              || decide (existing0.filePath
                ≠ some (Reservoir.toRelativePath relDir e.name)))
            || decide (jsTrim existing0.fetchedAt = "") } := by
      simp only [Reservoir.discoverStep, hcond, if_true, hby]
    have hids : ((Reservoir.discoverStep relDir retainedLocks st e).items).map
        ContentLockState.id = st.items.map ContentLockState.id := by
      rw [hstep]
      exact Reservoir.updateLast_ids st.items _ _
        (fun it => Reservoir.repairEntry_id _ _ it)
    refine ⟨hprov, ?_, ?_, ?_, ?_⟩
    · intro hnone
      exact Option.noConfusion hnone
    · intro existing hsome
      refine ⟨by rw [hstep], ?_⟩
      have := congrArg List.length hids
      simpa using this
    · intro it hit
      have hmem : it.id ∈ ((Reservoir.discoverStep relDir retainedLocks st e).items).map
          ContentLockState.id := by
        rw [hids]
        exact List.mem_map_of_mem ContentLockState.id hit
      obtain ⟨it', hit', hid⟩ := List.mem_map.mp hmem
      exact ⟨it', hit', hid⟩
    · rw [hstep]
      exact hseen st.seenIds _

theorem C7_untracked_discovery_witness :
    (Reservoir.discoverStep "channels/ch1/content" ["pin"]
        ⟨allocInitState, [], [], false⟩ ⟨"new.md", true, "t"⟩).items
      = [] ++ [{ id := (Reservoir.resolveId allocInitState
                   (Reservoir.toRelativePath "channels/ch1/content" "new.md")).1,
                 locks := ["pin"], fetchedAt := "t",
                 filePath := some (Reservoir.toRelativePath
                   "channels/ch1/content" "new.md") }] ∧
    (Reservoir.discoverStep "channels/ch1/content" ["pin"]
        ⟨allocInitState, [], [], false⟩ ⟨"new.md", true, "t"⟩).changed = true :=
  have h := (C7_untracked_discovery "channels/ch1/content" ["pin"]
    ⟨allocInitState, [], [], false⟩ ⟨"new.md", true, "t"⟩
    (Reservoir.toRelativePath "channels/ch1/content" "new.md")
    (Reservoir.resolveId allocInitState
      (Reservoir.toRelativePath "channels/ch1/content" "new.md"))
    rfl rfl rfl rfl).2.1 rfl
  ⟨h.1, h.2.1⟩

/- ── src/unnamed/part_016: FetchOrchestrator ──────────────────────────── -/

namespace InputNormalizer

/-- `InputNormalizer.idField`: a non-string or blank-trimming value is
`undefined`; otherwise the trimmed field name. -/
def idField (v : Option String) : Option String :=
  match v with
  | none => none
  | some s => if jsTrim s ≠ "" then some (jsTrim s) else none

end InputNormalizer

/-- `path.basename(p)` (POSIX): the part after the last slash. -/
def jsBasename (p : String) : String :=
  String.mk ((p.toList.reverse.takeWhile (fun c => c ≠ '/')).reverse)

/-- Length, dot included, of the extension ending a file name given reversed:
the distance to the last dot. -/
def extLenGo : List Char → Option Nat
  | [] => none
  | '.' :: _ => some 1
  | _ :: rest => (extLenGo rest).map (· + 1)

/-- `path.extname(p)`: from the base name's last dot to its end, empty when
there is no dot or the dot is the base name's first character. -/
def jsExtname (p : String) : String :=
  let b := (jsBasename p).toList
  match extLenGo b.reverse with
  | none => ""
  | some k => if k = b.length then "" else String.mk (b.drop (b.length - k))

/-- `path.basename(p, path.extname(p))`: the file name with its extension
stripped. -/
def baseNoExt (p : String) : String :=
  let b := (jsBasename p).toList
  let e := (jsExtname p).toList
  if e.length = 0 then String.mk b
  else String.mk (b.take (b.length - e.length))

/-- The run-collapsing pass of `contentFileSlug`'s
`replace(/[^a-z0-9]+/g, '-')`: `pending` records an open run of characters
outside `[a-z0-9]`. -/
def slugCollapseGo (pending : Bool) : List Char → List Char
  | [] => if pending then ['-'] else []
  | c :: rest =>
    if ('a' ≤ c && c ≤ 'z') || ('0' ≤ c && c ≤ '9') then
      if pending then '-' :: c :: slugCollapseGo false rest
      else c :: slugCollapseGo false rest
    else slugCollapseGo true rest

/-- `contentFileSlug`: lower-case the trimmed title, collapse runs of
non-alphanumerics to dashes, strip leading and trailing dashes, and fall back
to `"content"` when nothing remains. -/
def contentFileSlug (title : String) : String :=
  let collapsed := slugCollapseGo false ((jsTrim title).toList.map jsToLowerChar)
  let stripped :=
    ((collapsed.dropWhile (fun c => c = '-')).reverse.dropWhile
      (fun c => c = '-')).reverse
  if stripped.isEmpty then "content" else String.mk stripped

namespace FetchOrchestrator

/-- One fetched payload (`FetchedContent`); supplementary files only populate
the auxiliary resources directory, which sits outside this model. -/
structure FetchedContent where
  content : String
  sourceFileName : Option String
deriving DecidableEq, Repr

/-- An entry of `existingByDedupeKey`. -/
structure ExistingContentEntry where
  filePath : String
  contentId : Option String
deriving DecidableEq, Repr

/-- The `ContentItem` pushed onto `persisted`. -/
structure ContentItem where
  id : String
  channelId : String
  title : Option String
  fetchedAt : String
  locks : List String
  content : String
deriving DecidableEq, Repr

/-- The channel configuration `fetchChannel` reads. -/
structure ChannelCfg where
  channelId : String
  idField : Option String
  duplicateStrategy : DuplicateStrategy
  retainedLocks : List String
  contentRoot : String
deriving DecidableEq, Repr

/-- `contentFileStemForFetchedItem`: the suggested file name without its
extension when one is given and trims non-blank, else `"content"`. -/
def contentFileStemForFetchedItem (item : FetchedContent) : String :=
  match item.sourceFileName with
  | some n => if n ≠ "" ∧ jsTrim n ≠ "" then baseNoExt n else "content"
  | none => "content"

/-- `resolveDedupeKeyForFetchedItem`; `fields` stands for
`ContentParser.parseInlineFrontmatter` (content ↦ frontmatter fields). -/
def resolveDedupeKeyForFetchedItem (fields : String → List (String × String))
    (idf : Option String) (item : FetchedContent) : String :=
  match InputNormalizer.idField idf with
  | some configured =>
    match lookupKV (fields item.content) configured with
    | some v =>
      if jsTrim v ≠ "" then jsTrim v else contentFileStemForFetchedItem item
    | none => contentFileStemForFetchedItem item
  | none => contentFileStemForFetchedItem item

/-- The `k`-th name `createUniqueContentPath` probes: `base.md`, then
`base-1.md`, `base-2.md`, … -/
def candidatePath (contentDir base : String) : Nat → String
  | 0 => contentDir ++ "/" ++ base ++ ".md"
  | (k+1) => contentDir ++ "/" ++ base ++ "-" ++ natRepr (k+1) ++ ".md"

/-- The `while (fs.existsSync(candidatePath))` probe loop; explicit fuel
stands in for the unbounded JS loop (any fuel exceeding the number of files on
disk suffices, since distinct probes cannot all collide). -/
def createUniqueGo (ex : String → Bool) (contentDir base : String) :
    Nat → Nat → String
  | k, 0 => candidatePath contentDir base k
  | k, fuel+1 =>
    if ex (candidatePath contentDir base k)
    then createUniqueGo ex contentDir base (k+1) fuel
    else candidatePath contentDir base k

/-- `createUniqueContentPath(contentDir, fileStem)`. -/
def createUniqueContentPath (ex : String → Bool) (contentDir fileStem : String)
    (fuel : Nat) : String :=
  createUniqueGo ex contentDir (contentFileSlug fileStem) 0 fuel

/-- The state `fetchChannel` threads through its loop: allocator files,
channel metadata items, content files on disk (path ↦ contents), the
dedupe-key map, and the `persisted` accumulator. -/
structure FetchState where
  alloc : AllocState
  items : List ContentLockState
  files : List (String × String)
  byKey : List (String × ExistingContentEntry)
  persisted : List ContentItem
deriving DecidableEq, Repr

/-- The common tail of one loop iteration: the post-branch `fetchedAt` /
`filePath` refresh of the tracked state, `setMapping`, the content-file
write, the dedupe-map update and the `persisted` push. `now` models both
`new Date().toISOString()` calls of the iteration, whose net effect is the
later one. -/
def finishItem (inferTitle : String → Option String) (rel : String → String)
    (cfg : ChannelCfg) (now : String) (st : FetchState)
    (item : FetchedContent) (dedupeKey cid : String) (alloc1 : AllocState)
    (locks : List String) (items1 : List ContentLockState)
    (contentPath : String) : FetchState :=
  { alloc := setMapping alloc1 cid (rel contentPath),
    items := Reservoir.updateLast items1 cid
      (fun it => { it with fetchedAt := now, filePath := some (rel contentPath) }),
    files := setKV st.files contentPath item.content,
    byKey := setKV st.byKey dedupeKey ⟨contentPath, some cid⟩,
    persisted := st.persisted ++
      [{ id := cid, channelId := cfg.channelId,
         title := inferTitle item.content, fetchedAt := now,
         locks := locks, content := item.content }] }

/-- The non-overwrite arm: probe a fresh suffixed path, allocate or re-find an
identifier for it, and record the channel's retained locks. -/
def freshPathBranch (inferTitle : String → Option String)
    (rel : String → String) (cfg : ChannelCfg) (now : String) (fuel : Nat)
    (st : FetchState) (item : FetchedContent) (dedupeKey : String) :
    FetchState :=
  let contentPath := createUniqueContentPath
    (fun p => (lookupKV st.files p).isSome) cfg.contentRoot
    (contentFileStemForFetchedItem item) fuel
  let ra := assignIdToFile st.alloc (rel contentPath)
  finishItem inferTitle rel cfg now st item dedupeKey ra.1 ra.2
    cfg.retainedLocks
    (st.items ++ [{ id := ra.1, locks := cfg.retainedLocks, fetchedAt := now,
                    filePath := some (rel contentPath) }])
    contentPath

/-- The body of `fetchChannel`'s `for (const item of fetched)` loop.
`inferTitle` stands for `ContentParser.inferTitleFromContent`, `rel` for
`relativePathHelper.toRelativePath`. -/
def processItem (fields : String → List (String × String))
    (inferTitle : String → Option String) (rel : String → String)
    (cfg : ChannelCfg) (now : String) (fuel : Nat)
    (st : FetchState) (item : FetchedContent) : FetchState :=
  let dedupeKey := resolveDedupeKeyForFetchedItem fields cfg.idField item
  match lookupKV st.byKey dedupeKey with
  | some entry =>
    if cfg.duplicateStrategy = .overwrite then
      let ra :=
        match entry.contentId with
        | some cid => (cid, st.alloc)
        | none => assignIdToFile st.alloc (rel entry.filePath)
      let withState : List String × List ContentLockState :=
        match Reservoir.byIdGet st.items ra.1 with
        | some existingState =>
          (existingState.locks,
           Reservoir.updateLast st.items ra.1
             (fun it =>
               { it with fetchedAt := now,
                         filePath := some (rel entry.filePath) }))
        | none =>
          (cfg.retainedLocks,
           st.items ++ [{ id := ra.1, locks := cfg.retainedLocks,
                          fetchedAt := now,
                          filePath := some (rel entry.filePath) }])
      finishItem inferTitle rel cfg now st item dedupeKey ra.1 ra.2
        withState.1 withState.2 entry.filePath
    else freshPathBranch inferTitle rel cfg now fuel st item dedupeKey
  | none => freshPathBranch inferTitle rel cfg now fuel st item dedupeKey

/-- The whole `for (const item of fetched)` loop. -/
def fetchLoop (fields : String → List (String × String))
    (inferTitle : String → Option String) (rel : String → String)
    (cfg : ChannelCfg) (now : String) (fuel : Nat)
    (st : FetchState) (fetched : List FetchedContent) : FetchState :=
  fetched.foldl (processItem fields inferTitle rel cfg now fuel) st

end FetchOrchestrator

theorem find_updateFirst (i : String) (f : ContentLockState → ContentLockState)
    (hf : ∀ it, (f it).id = it.id) :
    ∀ m : List ContentLockState,
      (Reservoir.updateFirst i f m).find? (fun it => it.id = i)
        = (m.find? (fun it => it.id = i)).map f := by
  intro m
  induction m with
  | nil => rfl
  | cons it rest ih =>
    simp only [Reservoir.updateFirst]
    by_cases h : it.id = i
    · rw [if_pos h]
      rw [List.find?_cons_of_pos _ (by simp [hf, h]),
          List.find?_cons_of_pos _ (by simp [h])]
      rfl
    · rw [if_neg h]
      rw [List.find?_cons_of_neg _ (by simp [h]),
          List.find?_cons_of_neg _ (by simp [h]), ih]

theorem byIdGet_updateLast (l : List ContentLockState) (i : String)
    (f : ContentLockState → ContentLockState) (hf : ∀ it, (f it).id = it.id) :
    Reservoir.byIdGet (Reservoir.updateLast l i f) i
      = (Reservoir.byIdGet l i).map f := by
  unfold Reservoir.byIdGet Reservoir.updateLast
  rw [List.reverse_reverse]
  exact find_updateFirst i f hf l.reverse

theorem updateLast_append_self (l : List ContentLockState)
    (a : ContentLockState) (f : ContentLockState → ContentLockState) :
    Reservoir.updateLast (l ++ [a]) a.id f = l ++ [f a] := by
  unfold Reservoir.updateLast
  rw [List.reverse_append]
  show (Reservoir.updateFirst a.id f (a :: l.reverse)).reverse = l ++ [f a]
  simp only [Reservoir.updateFirst, if_true]
  rw [List.reverse_cons, List.reverse_reverse]

theorem createUniqueGo_spec (ex : String → Bool) (cd b : String) :
    ∀ (fuel k : Nat),
      (∃ j, k ≤ j ∧ j < k + fuel ∧
        ex (FetchOrchestrator.candidatePath cd b j) = false) →
      ∃ j, k ≤ j ∧
        FetchOrchestrator.createUniqueGo ex cd b k fuel
          = FetchOrchestrator.candidatePath cd b j ∧
        ex (FetchOrchestrator.candidatePath cd b j) = false ∧
        ∀ i, k ≤ i → i < j → ex (FetchOrchestrator.candidatePath cd b i) = true := by
  intro fuel
  induction fuel with
  | zero =>
    intro k h
    obtain ⟨j, h1, h2, _⟩ := h
    omega
  | succ n ih =>
    intro k h
    obtain ⟨j, h1, h2, h3⟩ := h
    by_cases hk : ex (FetchOrchestrator.candidatePath cd b k) = true
    · have hstep : FetchOrchestrator.createUniqueGo ex cd b k (n+1)
          = FetchOrchestrator.createUniqueGo ex cd b (k+1) n := by
        simp only [FetchOrchestrator.createUniqueGo]
        rw [if_pos hk]
      have hjne : j ≠ k := by
        intro hh
        rw [hh] at h3
        rw [h3] at hk
        cases hk
      obtain ⟨j', h1', h2', h3', h4'⟩ := ih (k+1) ⟨j, by omega, by omega, h3⟩
      refine ⟨j', by omega, by rw [hstep]; exact h2', h3', ?_⟩
      intro i hki hij
      by_cases hik : i = k
      · rw [hik]
        exact hk
      · exact h4' i (by omega) hij
    · have hstep : FetchOrchestrator.createUniqueGo ex cd b k (n+1)
          = FetchOrchestrator.candidatePath cd b k := by
        simp only [FetchOrchestrator.createUniqueGo]
        rw [if_neg hk]
      exact ⟨k, le_refl k, hstep, by simpa using hk, fun i hki hik => by omega⟩

/-- C3: duplicate handling in `fetchChannel`. Under the `overwrite` policy,
a fetched item whose dedup key matches an existing document with a bound
identifier and a tracked metadata record reuses that identifier and file
location, overwrites the file contents, refreshes the fetch timestamp and
preserves the existing lock set, adding no metadata record. Under `keep-both`
or with no match, the item is written to the probe loop's fresh path, an
identifier is allocated or re-bound for it, and the channel's retained locks
are applied. The chosen path carries the smallest unused numeric suffix
(`base.md`, `base-1.md`, …), and a second fetch over the resulting state picks
a different file name, since the first write made the first path exist. -/
theorem C3_duplicate_handling (fields : String → List (String × String))
    (inferTitle : String → Option String) (rel : String → String)
    (cfg : FetchOrchestrator.ChannelCfg) (now : String) (fuel : Nat)
    (st : FetchOrchestrator.FetchState) (item : FetchOrchestrator.FetchedContent)
    (key base P : String) (r : FetchOrchestrator.FetchState)
    (hkey : key = FetchOrchestrator.resolveDedupeKeyForFetchedItem fields
      cfg.idField item)
    (hbase : base = contentFileSlug
      (FetchOrchestrator.contentFileStemForFetchedItem item))
    (hP : P = FetchOrchestrator.createUniqueContentPath
      (fun p => (lookupKV st.files p).isSome) cfg.contentRoot
      (FetchOrchestrator.contentFileStemForFetchedItem item) fuel)
    (hr : r = FetchOrchestrator.processItem fields inferTitle rel cfg now fuel
      st item) :
    (∀ entry cid ex0,
      cfg.duplicateStrategy = DuplicateStrategy.overwrite →
      lookupKV st.byKey key = some entry →
      entry.contentId = some cid →
      Reservoir.byIdGet st.items cid = some ex0 →
      r.persisted = st.persisted ++
          [{ id := cid, channelId := cfg.channelId,
             title := inferTitle item.content, fetchedAt := now,
             locks := ex0.locks, content := item.content }] ∧
        r.files = setKV st.files entry.filePath item.content ∧
        Reservoir.byIdGet r.items cid
          = some { ex0 with fetchedAt := now,
                            filePath := some (rel entry.filePath) } ∧
        r.items.map ContentLockState.id = st.items.map ContentLockState.id ∧
        r.alloc = setMapping st.alloc cid (rel entry.filePath)) ∧
    ((lookupKV st.byKey key = none ∨
        cfg.duplicateStrategy = DuplicateStrategy.keepBoth) →
      r.items = st.items ++
          [{ id := (assignIdToFile st.alloc (rel P)).1,
             locks := cfg.retainedLocks, fetchedAt := now,
             filePath := some (rel P) }] ∧
        r.persisted = st.persisted ++
          [{ id := (assignIdToFile st.alloc (rel P)).1,
             channelId := cfg.channelId, title := inferTitle item.content,
             fetchedAt := now, locks := cfg.retainedLocks,
             content := item.content }] ∧
        r.files = setKV st.files P item.content ∧
        r.alloc = setMapping (assignIdToFile st.alloc (rel P)).2
          (assignIdToFile st.alloc (rel P)).1 (rel P)) ∧
    ((∃ j, j < fuel ∧ (lookupKV st.files
        (FetchOrchestrator.candidatePath cfg.contentRoot base j)).isSome
          = false) →
      ∃ j, P = FetchOrchestrator.candidatePath cfg.contentRoot base j ∧
        (lookupKV st.files P).isSome = false ∧
        ∀ i, i < j → (lookupKV st.files
          (FetchOrchestrator.candidatePath cfg.contentRoot base i)).isSome
            = true) ∧
    ((lookupKV st.byKey key = none ∨
        cfg.duplicateStrategy = DuplicateStrategy.keepBoth) →
      (∃ j, j < fuel ∧ (lookupKV st.files
        (FetchOrchestrator.candidatePath cfg.contentRoot base j)).isSome
          = false) →
      ∀ stem2 fuel2,
        (∃ j, j < fuel2 ∧ (lookupKV r.files
          (FetchOrchestrator.candidatePath cfg.contentRoot
            (contentFileSlug stem2) j)).isSome = false) →
        FetchOrchestrator.createUniqueContentPath
            (fun p => (lookupKV r.files p).isSome) cfg.contentRoot stem2 fuel2
          ≠ P) := by
  subst hkey
  subst hbase
  subst hP
  subst hr
  have helseEq : (lookupKV st.byKey
        (FetchOrchestrator.resolveDedupeKeyForFetchedItem fields
          cfg.idField item) = none ∨
      cfg.duplicateStrategy = DuplicateStrategy.keepBoth) →
      FetchOrchestrator.processItem fields inferTitle rel cfg now fuel st item
        = FetchOrchestrator.freshPathBranch inferTitle rel cfg now fuel st item
            (FetchOrchestrator.resolveDedupeKeyForFetchedItem fields
              cfg.idField item) := by
    intro helse
    cases hlk : lookupKV st.byKey
        (FetchOrchestrator.resolveDedupeKeyForFetchedItem fields
          cfg.idField item) with
    | none => simp only [FetchOrchestrator.processItem, hlk]
    | some entry =>
      rcases helse with hnone | hkb
      · rw [hlk] at hnone
        exact Option.noConfusion hnone
      · simp only [FetchOrchestrator.processItem, hlk]
        rw [if_neg (by rw [hkb]; intro hh; cases hh)]
  have hfreshItems : (FetchOrchestrator.freshPathBranch inferTitle rel cfg now
        fuel st item (FetchOrchestrator.resolveDedupeKeyForFetchedItem fields
          cfg.idField item)).items
      = st.items ++
        [{ id := (assignIdToFile st.alloc (rel
              (FetchOrchestrator.createUniqueContentPath
                (fun p => (lookupKV st.files p).isSome) cfg.contentRoot
                (FetchOrchestrator.contentFileStemForFetchedItem item)
                fuel))).1,
           locks := cfg.retainedLocks, fetchedAt := now,
           filePath := some (rel (FetchOrchestrator.createUniqueContentPath
              (fun p => (lookupKV st.files p).isSome) cfg.contentRoot
              (FetchOrchestrator.contentFileStemForFetchedItem item)
              fuel)) }] := by
    simp only [FetchOrchestrator.freshPathBranch, FetchOrchestrator.finishItem]
    exact updateLast_append_self st.items _ _
  refine ⟨?_, ?_, ?_, ?_⟩
  · intro entry cid ex0 how hlook hcid hex
    simp only [FetchOrchestrator.processItem, hlook]
    rw [if_pos how]
    simp only [hcid, hex, FetchOrchestrator.finishItem]
    refine ⟨trivial, trivial, ?_, ?_, trivial⟩
    · rw [byIdGet_updateLast _ cid
          (fun it =>
            { it with fetchedAt := now,
                      filePath := some (rel entry.filePath) })
          (fun it => rfl),
        byIdGet_updateLast _ cid
          (fun it =>
            { it with fetchedAt := now,
                      filePath := some (rel entry.filePath) })
          (fun it => rfl), hex]
      rfl
    · rw [Reservoir.updateLast_ids _ cid
          (fun it =>
            { it with fetchedAt := now,
                      filePath := some (rel entry.filePath) })
          (fun it => rfl),
        Reservoir.updateLast_ids _ cid
          (fun it =>
            { it with fetchedAt := now,
                      filePath := some (rel entry.filePath) })
          (fun it => rfl)]
  · intro helse
    rw [helseEq helse]
    refine ⟨hfreshItems, ?_, ?_, ?_⟩
    · simp only [FetchOrchestrator.freshPathBranch, FetchOrchestrator.finishItem]
    · simp only [FetchOrchestrator.freshPathBranch, FetchOrchestrator.finishItem]
    · simp only [FetchOrchestrator.freshPathBranch, FetchOrchestrator.finishItem]
  · intro hfree
    obtain ⟨j0, hj0, hj0f⟩ := hfree
    obtain ⟨j, _, heq, hfreej, hmin⟩ := createUniqueGo_spec
      (fun p => (lookupKV st.files p).isSome) cfg.contentRoot
      (contentFileSlug (FetchOrchestrator.contentFileStemForFetchedItem item))
      fuel 0 ⟨j0, Nat.zero_le j0, by omega, hj0f⟩
    refine ⟨j, ?_, ?_, fun i hij => hmin i (Nat.zero_le i) hij⟩
    · simp only [FetchOrchestrator.createUniqueContentPath]
      exact heq
    · simp only [FetchOrchestrator.createUniqueContentPath, heq]
      exact hfreej
  · intro helse hfree stem2 fuel2 hfree2 heqP
    have hfiles : (FetchOrchestrator.processItem fields inferTitle rel cfg now
        fuel st item).files
        = setKV st.files (FetchOrchestrator.createUniqueContentPath
            (fun p => (lookupKV st.files p).isSome) cfg.contentRoot
            (FetchOrchestrator.contentFileStemForFetchedItem item) fuel)
          item.content := by
      rw [helseEq helse]
      simp only [FetchOrchestrator.freshPathBranch, FetchOrchestrator.finishItem]
    obtain ⟨j2, hj2, hj2f⟩ := hfree2
    obtain ⟨j', _, heq2, hfree2j, _⟩ := createUniqueGo_spec
      (fun p => (lookupKV (FetchOrchestrator.processItem fields inferTitle rel
        cfg now fuel st item).files p).isSome) cfg.contentRoot
      (contentFileSlug stem2) fuel2 0 ⟨j2, Nat.zero_le j2, by omega, hj2f⟩
    have hP2free : (lookupKV (FetchOrchestrator.processItem fields inferTitle
        rel cfg now fuel st item).files
        (FetchOrchestrator.createUniqueContentPath
          (fun p => (lookupKV (FetchOrchestrator.processItem fields inferTitle
            rel cfg now fuel st item).files p).isSome) cfg.contentRoot stem2
          fuel2)).isSome = false := by
      simp only [FetchOrchestrator.createUniqueContentPath, heq2]
      exact hfree2j
    rw [heqP] at hP2free
    rw [hfiles, lookupKV_setKV_self] at hP2free
    exact Bool.noConfusion hP2free

theorem C3_duplicate_handling_witness :
    (FetchOrchestrator.processItem (fun _ => []) (fun _ => none) (fun s => s)
        ⟨"ch1", none, DuplicateStrategy.keepBoth, ["pin"], "root"⟩ "t" 1
        ⟨allocInitState, [], [], [], []⟩ ⟨"hello", none⟩).files
      = setKV [] (FetchOrchestrator.createUniqueContentPath
          (fun p => (lookupKV ([] : List (String × String)) p).isSome) "root"
          (FetchOrchestrator.contentFileStemForFetchedItem ⟨"hello", none⟩) 1)
        "hello" :=
  ((C3_duplicate_handling (fun _ => []) (fun _ => none) (fun s => s)
      ⟨"ch1", none, DuplicateStrategy.keepBoth, ["pin"], "root"⟩ "t" 1
      ⟨allocInitState, [], [], [], []⟩ ⟨"hello", none⟩
      _ _ _ _ rfl rfl rfl rfl).2.1 (Or.inr rfl)).2.2.1
